import Mathlib

/-!
Angular correlation function, CPU reference (`src/acf_cpu.cpp`).

A shallow embedding of `angularDistance` and of the pair-counting pass of `main`.

* `double` values are elements of a linearly ordered field `K` with a floor function.
  Every arithmetic operation of the source on `double` is the exact operation of `K`
  followed by `rnd`, the rounding to a representable value; each operation is rounded on
  its own (no fused multiply-add, no extended precision). `rnd` and the `<cmath>`
  entities `sin`, `cos`, `acos`, `M_PI`, which are not part of the repository, are the
  fields of a `CMath K` record handed to the code.
* `realMath` is exact real arithmetic: `rnd` is the identity and the functions are the
  real ones. It and the specification-side definitions built on real trigonometry are
  the only definitions that cannot be run.
* `binary64` is IEEE-754 double arithmetic over `ℚ`: `rnd` is round-to-nearest, ties to
  even, to a 53-bit significand (`roundBinary64`; the exponent is unbounded, so overflow
  and subnormal numbers are not represented), and `sin`, `cos`, `acos` are given by the
  table of the values a correctly rounding C library returns at the arguments reached
  in the worked examples; `binary64_tables_correct` proves every entry to be within half
  a unit in the last place of the real function.
* `FloatLaws m` collects the properties of an environment that the rounding-independent
  theorems use; both `realMath` and `binary64` have them.
* `int` counters are `Int`. The addition used for `histogram[bin_index]++` and for
  `counted_pairs += count` is a parameter `add : Int → Int → Option Int`;
  `addExact` never fails (unbounded counters), `addInt32` fails exactly when the
  mathematical sum leaves the range of a 32-bit signed `int`.
* `histogram[bin_index]` on a `std::vector<int>` is unchecked; an index outside
  `0..size-1` makes the pass return `none`.
-/

namespace AcfCpu

/-! ## Definitions -/

/-- The floating-point environment of the source: the entities of `<cmath>` it uses,
`sin`, `cos`, `acos`, `M_PI`, and `rnd`, the rounding applied to the exact result of
every arithmetic operation on `double`. -/
structure CMath (K : Type) where
  sin : K → K
  cos : K → K
  acos : K → K
  M_PI : K
  rnd : K → K

section Generic

variable {K : Type} [LinearOrderedField K]

/-- Line 8: `const double DEGREE_TO_RAD = M_PI / 180.0;` -/
def DEGREE_TO_RAD (m : CMath K) : K := m.rnd (m.M_PI / 180)

/-- Lines 12-17 of `angularDistance`: conversion to radians and the spherical law of
cosines, before clamping. -/
def cosAngle (m : CMath K) (ra1_deg dec1_deg ra2_deg dec2_deg : K) : K :=
  let ra1 := m.rnd (ra1_deg * DEGREE_TO_RAD m)
  let dec1 := m.rnd (dec1_deg * DEGREE_TO_RAD m)
  let ra2 := m.rnd (ra2_deg * DEGREE_TO_RAD m)
  let dec2 := m.rnd (dec2_deg * DEGREE_TO_RAD m)
  m.rnd (m.rnd (m.sin dec1 * m.sin dec2)
    + m.rnd (m.rnd (m.cos dec1 * m.cos dec2) * m.cos (m.rnd (ra1 - ra2))))

/-- Lines 20-21 of `angularDistance`: the two clamping statements, in order. -/
def clampCos (cos_angle : K) : K :=
  let cos_angle := if cos_angle > 1 then 1 else cos_angle
  let cos_angle := if cos_angle < -1 then -1 else cos_angle
  cos_angle

/-- Lines 11-25: `double angularDistance(ra1_deg, dec1_deg, ra2_deg, dec2_deg)`. -/
def angularDistance (m : CMath K) (ra1_deg dec1_deg ra2_deg dec2_deg : K) : K :=
  let cos_angle := clampCos (cosAngle m ra1_deg dec1_deg ra2_deg dec2_deg)
  let angle_rad := m.acos cos_angle
  m.rnd (angle_rad / DEGREE_TO_RAD m)

/-- Exact counter addition (unbounded integers). -/
def addExact (a b : Int) : Option Int := some (a + b)

/-- Largest value of a 32-bit signed `int`. -/
def INT_MAX : Int := 2147483647

/-- Smallest value of a 32-bit signed `int`. -/
def INT_MIN : Int := -2147483648

/-- Addition of 32-bit signed `int`: defined only when the sum is representable. -/
def addInt32 (a b : Int) : Option Int :=
  if INT_MIN ≤ a + b ∧ a + b ≤ INT_MAX then some (a + b) else none

/-- Line 62: `static_cast<int>(x)` on a `double`, truncation toward zero. -/
def truncToInt [FloorRing K] (x : K) : Int := if 0 ≤ x then ⌊x⌋ else ⌈x⌉

/-- Line 63: `histogram[bin_index]++`. Fails on an index outside the vector and when the
counter addition fails. -/
def bump (add : Int → Int → Option Int) (histogram : List Int) (bin_index : Int) :
    Option (List Int) :=
  if 0 ≤ bin_index ∧ bin_index.toNat < histogram.length then
    (add (histogram.getD bin_index.toNat 0) 1).map
      (fun c => histogram.set bin_index.toNat c)
  else none

/-- Lines 59-64: the body of the inner loop for the index pair `(i, j)`. -/
def visitPair [FloorRing K] (m : CMath K) (add : Int → Int → Option Int)
    (max_distance bin_size : K) (points : List (K × K)) (i j : Nat)
    (histogram : List Int) : Option (List Int) :=
  let dist := angularDistance m (points.getD i (0, 0)).1 (points.getD i (0, 0)).2
    (points.getD j (0, 0)).1 (points.getD j (0, 0)).2
  if dist < max_distance then
    let bin_index := truncToInt (m.rnd (dist / bin_size))
    bump add histogram bin_index
  else some histogram

/-- Lines 58-65: `for (size_t j = i + 1; j < points.size(); ++j)`. -/
def innerLoop [FloorRing K] (m : CMath K) (add : Int → Int → Option Int)
    (max_distance bin_size : K) (points : List (K × K)) (i : Nat)
    (histogram : List Int) : Option (List Int) :=
  (List.range' (i + 1) (points.length - (i + 1))).foldlM
    (fun h j => visitPair m add max_distance bin_size points i j h) histogram

/-- Lines 57-66: `for (size_t i = 0; i < points.size(); ++i)`. -/
def outerLoop [FloorRing K] (m : CMath K) (add : Int → Int → Option Int)
    (max_distance bin_size : K) (points : List (K × K))
    (histogram : List Int) : Option (List Int) :=
  (List.range points.length).foldlM
    (fun h i => innerLoop m add max_distance bin_size points i h) histogram

/-- Lines 47-66 of `main`: the zero-initialised histogram, `bin_size`, and the counting
pass. In the source `num_bins = 10` and `max_distance = 10.0`. -/
def countingPass [FloorRing K] (m : CMath K) (add : Int → Int → Option Int)
    (num_bins : Nat) (max_distance : K) (points : List (K × K)) : Option (List Int) :=
  let histogram := List.replicate num_bins (0 : Int)
  let bin_size := m.rnd (max_distance / (num_bins : K))
  outerLoop m add max_distance bin_size points histogram

/-- Lines 78-79: `int counted_pairs = 0; for (int count : histogram) counted_pairs += count;` -/
def countedPairs (add : Int → Int → Option Int) (histogram : List Int) : Option Int :=
  histogram.foldlM add 0

/-- The index pairs in the order in which the two nested loops reach them. -/
def visitedPairs (n : Nat) : List (Nat × Nat) :=
  (List.range n).flatMap (fun i => (List.range' (i + 1) (n - (i + 1))).map (fun j => (i, j)))

/-- The distance computed at lines 59-60 for the index pair `(i, j)`. -/
def pairDist (m : CMath K) (points : List (K × K)) (i j : Nat) : K :=
  angularDistance m (points.getD i (0, 0)).1 (points.getD i (0, 0)).2
    (points.getD j (0, 0)).1 (points.getD j (0, 0)).2

/-- The loop body run over a list of index pairs, in order. -/
def foldPairs [FloorRing K] (m : CMath K) (add : Int → Int → Option Int)
    (max_distance bin_size : K) (points : List (K × K)) (pairs : List (Nat × Nat))
    (histogram : List Int) : Option (List Int) :=
  pairs.foldlM (fun h p => visitPair m add max_distance bin_size points p.1 p.2 h) histogram

/-- Specification side: the index pairs `i < j < n` whose distance is below
`max_distance`. -/
def inRangePairs (dist : Nat → Nat → K) (n : Nat) (max_distance : K) : Finset (Nat × Nat) :=
  (Finset.range n ×ˢ Finset.range n).filter
    (fun p => p.1 < p.2 ∧ dist p.1 p.2 < max_distance)

/-- Specification side: the index pairs `i < j < n` whose distance `d` is below
`max_distance` and has `floor (d / bin_size) = k`. -/
def binPairs [FloorRing K] (dist : Nat → Nat → K) (n : Nat) (max_distance bin_size : K)
    (k : Nat) : Finset (Nat × Nat) :=
  (Finset.range n ×ˢ Finset.range n).filter
    (fun p => p.1 < p.2 ∧ dist p.1 p.2 < max_distance
      ∧ ⌊dist p.1 p.2 / bin_size⌋ = (k : Int))

/-- Specification side: the index pairs `i < j < n` whose distance `d` is below
`max_distance` and lies in `[k * bin_size, (k + 1) * bin_size)`. -/
def binPairsInterval (dist : Nat → Nat → K) (n : Nat) (max_distance bin_size : K)
    (k : Nat) : Finset (Nat × Nat) :=
  (Finset.range n ×ˢ Finset.range n).filter
    (fun p => p.1 < p.2 ∧ dist p.1 p.2 < max_distance
      ∧ (k : K) * bin_size ≤ dist p.1 p.2 ∧ dist p.1 p.2 < ((k : K) + 1) * bin_size)

/-- Every pair that passes the filter `dist < max_distance` gets a bin index inside
`0..num_bins-1`. -/
def InBounds [FloorRing K] (m : CMath K) (num_bins : Nat) (max_distance bin_size : K)
    (points : List (K × K)) : Prop :=
  ∀ i j : Nat, pairDist m points i j < max_distance →
    0 ≤ truncToInt (m.rnd (pairDist m points i j / bin_size))
      ∧ truncToInt (m.rnd (pairDist m points i j / bin_size)) < (num_bins : Int)

/-- The properties of a floating-point environment used by the theorems that do not
depend on how results are rounded: rounding keeps non-negative values non-negative,
leaves an already rounded value and the value `1` unchanged, `acos` is non-negative on
`[-1, 1]`, and `DEGREE_TO_RAD` is positive. -/
structure FloatLaws (m : CMath K) : Prop where
  rnd_nonneg : ∀ x : K, 0 ≤ x → 0 ≤ m.rnd x
  rnd_idem : ∀ x : K, m.rnd (m.rnd x) = m.rnd x
  rnd_one : m.rnd 1 = 1
  acos_nonneg : ∀ x : K, -1 ≤ x → x ≤ 1 → 0 ≤ m.acos x
  deg_pos : 0 < DEGREE_TO_RAD m

end Generic

/-! ### IEEE-754 double arithmetic over the rationals -/

/-- Rounding of a rational to the nearest integer, ties to the even one. -/
def roundHalfEven (q : ℚ) : ℤ :=
  if q - ⌊q⌋ < 1 / 2 then ⌊q⌋
  else if 1 / 2 < q - ⌊q⌋ then ⌊q⌋ + 1
  else if ⌊q⌋ % 2 = 0 then ⌊q⌋ else ⌊q⌋ + 1

/-- Rounding of a positive rational to the nearest value with a 53-bit significand, ties
to even: for `2^e ≤ x < 2^(e+1)` the result is the multiple of `2^(e-52)` nearest
to `x`. -/
def roundPos (x : ℚ) : ℚ :=
  (roundHalfEven (x / 2 ^ (Int.log 2 x - 52)) : ℚ) * 2 ^ (Int.log 2 x - 52)

/-- IEEE-754 binary64 rounding of a rational, round-to-nearest, ties to even (unbounded
exponent range). -/
def roundBinary64 (x : ℚ) : ℚ :=
  if x = 0 then 0 else if 0 < x then roundPos x else -roundPos (-x)

/-- The `double` nearest to π, the value of `M_PI`. -/
def M_PI_64 : ℚ := 884279719003555 / 2 ^ 48

/-- Table of `sin` on `double`: the correctly rounded values at the non-zero arguments
reached in the worked examples, `-46 * DEGREE_TO_RAD` and `±5 * DEGREE_TO_RAD`;
`sin 0 = 0` is the default entry, and no theorem that evaluates `binary64` reaches
another argument. -/
def sinTable (x : ℚ) : ℚ :=
  if x = -3615721517703425 / 2 ^ 52 then -809904614189479 / 2 ^ 50
  else if x = -6288211335136391 / 2 ^ 56 then -3140116564492417 / 2 ^ 55
  else if x = 6288211335136391 / 2 ^ 56 then 3140116564492417 / 2 ^ 55
  else 0

/-- Table of `cos` on `double`: the correctly rounded values at the arguments reached in
the worked examples: `0`, `-46 * DEGREE_TO_RAD`, `±5 * DEGREE_TO_RAD`,
`-(10 * DEGREE_TO_RAD)` and `-(22 * DEGREE_TO_RAD)`. -/
def cosTable (x : ℚ) : ℚ :=
  if x = 0 then 1
  else if x = -3615721517703425 / 2 ^ 52 then 391057897293617 / 2 ^ 49
  else if x = -6288211335136391 / 2 ^ 56 then 4486462071114449 / 2 ^ 52
  else if x = 6288211335136391 / 2 ^ 56 then 4486462071114449 / 2 ^ 52
  else if x = -6288211335136391 / 2 ^ 55 then 8870359658994711 / 2 ^ 53
  else if x = -3458516234325015 / 2 ^ 53 then 1043916215482731 / 2 ^ 50
  else 0

/-- Table of `acos` on `double`: the correctly rounded values at the four values of
`cos_angle` below `1` reached in the worked examples; `acos 1 = 0` is the default
entry. -/
def acosTable (x : ℚ) : ℚ :=
  if x = 4503599627370495 / 2 ^ 52 then 6369051672525773 / 2 ^ 78
  else if x = 1108794957374339 / 2 ^ 50 then 786026416892047 / 2 ^ 52
  else if x = 8870359658994711 / 2 ^ 53 then 6288211335136399 / 2 ^ 55
  else if x = 1043916215482731 / 2 ^ 50 then 6917032468650029 / 2 ^ 54
  else 0

/-- The real part of `i ^ m`: the sign pattern of the Taylor series of `cos`. -/
def cycRe (m : ℕ) : ℤ := if m % 4 = 0 then 1 else if m % 4 = 2 then -1 else 0

/-- The imaginary part of `i ^ m`: the sign pattern of the Taylor series of `sin`. -/
def cycIm (m : ℕ) : ℤ := if m % 4 = 1 then 1 else if m % 4 = 3 then -1 else 0

/-- The `double` `y` is within half a unit in the last place of the real number `r`:
`y = n * 2^(e-52)` lies in the binade `2^e ≤ |y| < 2^(e+1)` and `|r - y| < 2^(e-53)`. -/
def WithinHalfUlp (r : ℝ) (y : ℚ) : Prop :=
  ∃ e n : ℤ, (2 : ℚ) ^ e ≤ |y| ∧ |y| < (2 : ℚ) ^ (e + 1) ∧ y = n * 2 ^ (e - 52)
    ∧ |r - (y : ℝ)| < (((2 : ℚ) ^ (e - 53) : ℚ) : ℝ)

/-- IEEE-754 double arithmetic with the tabulated library functions. -/
def binary64 : CMath ℚ := ⟨sinTable, cosTable, acosTable, M_PI_64, roundBinary64⟩

/-- Exact real arithmetic: the real functions and no rounding. -/
noncomputable def realMath : CMath ℝ :=
  ⟨Real.sin, Real.cos, Real.arccos, Real.pi, fun x => x⟩

/-- Specification side of the great-circle separation: the unit vector of a point given
by right ascension and declination in degrees. -/
noncomputable def unitVector (ra_deg dec_deg : ℝ) : ℝ × ℝ × ℝ :=
  let ra := ra_deg * (Real.pi / 180)
  let dec := dec_deg * (Real.pi / 180)
  (Real.cos dec * Real.cos ra, Real.cos dec * Real.sin ra, Real.sin dec)

/-- Dot product of two vectors of `ℝ³`. -/
def dot3 (u v : ℝ × ℝ × ℝ) : ℝ := u.1 * v.1 + u.2.1 * v.2.1 + u.2.2 * v.2.2

/-- A triple of reals as a vector of Euclidean 3-space. -/
noncomputable def toEuclidean3 (u : ℝ × ℝ × ℝ) : EuclideanSpace ℝ (Fin 3) :=
  ![u.1, u.2.1, u.2.2]

/-- Specification side: `(180/π)` times the angle between the two unit vectors. -/
noncomputable def greatCircleSeparation (ra1 dec1 ra2 dec2 : ℝ) : ℝ :=
  180 / Real.pi * InnerProductGeometry.angle (toEuclidean3 (unitVector ra1 dec1))
    (toEuclidean3 (unitVector ra2 dec2))

/-! ## `angularDistance` -/

section Clamp

variable {K : Type} [LinearOrderedField K]

theorem clampCos_ge (x : K) : -1 ≤ clampCos x := by
  unfold clampCos
  dsimp only
  split_ifs with h1 h2 h2
  · exact le_refl _
  · exact le_of_not_lt h2
  · exact le_refl _
  · exact le_of_not_lt h2

theorem clampCos_le (x : K) : clampCos x ≤ 1 := by
  unfold clampCos
  dsimp only
  split_ifs with h1 h2 h2
  · exact neg_le_self zero_le_one
  · exact le_refl _
  · exact neg_le_self zero_le_one
  · exact le_of_not_lt h1

theorem clampCos_id {x : K} (hlo : -1 ≤ x) (hhi : x ≤ 1) : clampCos x = x := by
  unfold clampCos
  dsimp only
  rw [if_neg (not_lt.mpr hhi), if_neg (not_lt.mpr hlo)]

end Clamp

theorem realMath_rnd (x : ℝ) : realMath.rnd x = x := rfl

theorem DEGREE_TO_RAD_real : DEGREE_TO_RAD realMath = Real.pi / 180 := rfl

theorem DEGREE_TO_RAD_real_pos : 0 < DEGREE_TO_RAD realMath := by
  rw [DEGREE_TO_RAD_real]
  exact div_pos Real.pi_pos (by norm_num)

/-- The law-of-cosines expression is the dot product of the two unit vectors. -/
theorem cosAngle_real_eq_dot (ra1 dec1 ra2 dec2 : ℝ) :
    cosAngle realMath ra1 dec1 ra2 dec2
      = dot3 (unitVector ra1 dec1) (unitVector ra2 dec2) := by
  simp only [cosAngle, realMath, DEGREE_TO_RAD, dot3, unitVector, Real.cos_sub]
  ring

/-- Over the reals the law-of-cosines expression lies in `[-1, 1]`. -/
theorem cosAngle_real_mem (ra1 dec1 ra2 dec2 : ℝ) :
    -1 ≤ cosAngle realMath ra1 dec1 ra2 dec2 ∧ cosAngle realMath ra1 dec1 ra2 dec2 ≤ 1 := by
  simp only [cosAngle, realMath, DEGREE_TO_RAD]
  generalize ra1 * (Real.pi / 180) - ra2 * (Real.pi / 180) = t
  generalize dec1 * (Real.pi / 180) = a
  generalize dec2 * (Real.pi / 180) = b
  have ha := Real.sin_sq_add_cos_sq a
  have hb := Real.sin_sq_add_cos_sq b
  have ht1 := Real.cos_le_one t
  have ht2 := Real.neg_one_le_cos t
  have e1 : 0 ≤ (Real.sin a - Real.sin b) ^ 2 + (Real.cos a - Real.cos b) ^ 2 := by positivity
  have e2 : 0 ≤ (Real.sin a - Real.sin b) ^ 2 + (Real.cos a + Real.cos b) ^ 2 := by positivity
  have e3 : 0 ≤ (Real.sin a + Real.sin b) ^ 2 + (Real.cos a - Real.cos b) ^ 2 := by positivity
  have e4 : 0 ≤ (Real.sin a + Real.sin b) ^ 2 + (Real.cos a + Real.cos b) ^ 2 := by positivity
  constructor
  · nlinarith [mul_nonneg (sub_nonneg.mpr ht1) e4, mul_nonneg (sub_nonneg.mpr ht2) e3,
      mul_nonneg (sub_nonneg.mpr ht1) e3, mul_nonneg (sub_nonneg.mpr ht2) e4]
  · nlinarith [mul_nonneg (sub_nonneg.mpr ht1) e2, mul_nonneg (sub_nonneg.mpr ht2) e1,
      mul_nonneg (sub_nonneg.mpr ht1) e1, mul_nonneg (sub_nonneg.mpr ht2) e2]

theorem angularDistance_real (ra1 dec1 ra2 dec2 : ℝ) :
    angularDistance realMath ra1 dec1 ra2 dec2
      = Real.arccos (cosAngle realMath ra1 dec1 ra2 dec2) / (Real.pi / 180) := by
  have h := cosAngle_real_mem ra1 dec1 ra2 dec2
  simp only [angularDistance, clampCos_id h.1 h.2, DEGREE_TO_RAD_real]
  rfl

theorem angularDistance_real_nonneg (ra1 dec1 ra2 dec2 : ℝ) :
    0 ≤ angularDistance realMath ra1 dec1 ra2 dec2 := by
  rw [angularDistance_real]
  exact div_nonneg (Real.arccos_nonneg _) (le_of_lt (div_pos Real.pi_pos (by norm_num)))

theorem angularDistance_real_le (ra1 dec1 ra2 dec2 : ℝ) :
    angularDistance realMath ra1 dec1 ra2 dec2 ≤ 180 := by
  rw [angularDistance_real, div_le_iff₀ (div_pos Real.pi_pos (by norm_num))]
  have := Real.arccos_le_pi (cosAngle realMath ra1 dec1 ra2 dec2)
  linarith

theorem angularDistance_real_self (ra dec : ℝ) :
    angularDistance realMath ra dec ra dec = 0 := by
  rw [angularDistance_real]
  have h : cosAngle realMath ra dec ra dec = 1 := by
    simp only [cosAngle, realMath, DEGREE_TO_RAD, sub_self, Real.cos_zero, mul_one]
    have := Real.sin_sq_add_cos_sq (dec * (Real.pi / 180))
    nlinarith
  rw [h, Real.arccos_one, zero_div]


/-! ## Rounding to `double` -/

theorem floor_le_roundHalfEven (q : ℚ) : ⌊q⌋ ≤ roundHalfEven q := by
  unfold roundHalfEven
  split_ifs <;> omega

theorem roundHalfEven_le (q : ℚ) : roundHalfEven q ≤ ⌊q⌋ + 1 := by
  unfold roundHalfEven
  split_ifs <;> omega

/-- A rational strictly within `1/2` of an integer rounds to that integer. -/
theorem roundHalfEven_eq (q : ℚ) (n : ℤ) (h1 : (n : ℚ) - 1 / 2 < q) (h2 : q < n + 1 / 2) :
    roundHalfEven q = n := by
  unfold roundHalfEven
  by_cases hq : (n : ℚ) ≤ q
  · have hf : ⌊q⌋ = n := by
      rw [Int.floor_eq_iff]
      constructor <;> linarith
    rw [hf, if_pos (by linarith)]
  · have hf : ⌊q⌋ = n - 1 := by
      rw [Int.floor_eq_iff]
      push_cast
      constructor <;> linarith
    rw [hf]
    push_cast
    rw [if_neg (by linarith), if_pos (by linarith)]
    ring

/-- A rational halfway between `n` and `n + 1` rounds to `n + 1` when `n` is odd. -/
theorem roundHalfEven_tie_odd (q : ℚ) (n : ℤ) (h : q = n + 1 / 2) (ho : n % 2 = 1) :
    roundHalfEven q = n + 1 := by
  have hf : ⌊q⌋ = n := by
    rw [Int.floor_eq_iff]
    constructor <;> linarith
  unfold roundHalfEven
  rw [hf, if_neg (by linarith), if_neg (by linarith), if_neg (by omega)]

theorem log_two_eq {x : ℚ} (e : ℤ) (h1 : (2 : ℚ) ^ e ≤ x) (h2 : x < (2 : ℚ) ^ (e + 1)) :
    Int.log 2 x = e := by
  have hx : 0 < x := lt_of_lt_of_le (zpow_pos (by norm_num) e) h1
  have a : e ≤ Int.log 2 x :=
    (Int.zpow_le_iff_le_log (by norm_num) hx).mp (by exact_mod_cast h1)
  have b : Int.log 2 x < e + 1 :=
    (Int.lt_zpow_iff_log_lt (by norm_num) hx).mp (by exact_mod_cast h2)
  omega

/-- Evaluation of `roundPos` in the binade `2^e ≤ x < 2^(e+1)`. -/
theorem roundPos_eq_of {x : ℚ} (e n : ℤ) (h1 : (2 : ℚ) ^ e ≤ x) (h2 : x < (2 : ℚ) ^ (e + 1))
    (hr : roundHalfEven (x / 2 ^ (e - 52)) = n) : roundPos x = n * 2 ^ (e - 52) := by
  unfold roundPos
  rw [log_two_eq e h1 h2, hr]

/-- Evaluation of `roundPos`: in the binade `2^e ≤ x < 2^(e+1)`, a value strictly within
half a unit in the last place of `n * 2^(e-52)` rounds to it. -/
theorem roundPos_eq {x : ℚ} (e n : ℤ) (h1 : (2 : ℚ) ^ e ≤ x) (h2 : x < (2 : ℚ) ^ (e + 1))
    (h3 : (n : ℚ) - 1 / 2 < x / 2 ^ (e - 52)) (h4 : x / 2 ^ (e - 52) < n + 1 / 2) :
    roundPos x = n * 2 ^ (e - 52) :=
  roundPos_eq_of e n h1 h2 (roundHalfEven_eq _ n h3 h4)

theorem roundBinary64_zero : roundBinary64 0 = 0 := by
  unfold roundBinary64
  exact if_pos rfl

theorem roundBinary64_of_pos {x : ℚ} (hx : 0 < x) : roundBinary64 x = roundPos x := by
  unfold roundBinary64
  rw [if_neg (ne_of_gt hx), if_pos hx]

theorem roundBinary64_of_neg {x : ℚ} (hx : x < 0) : roundBinary64 x = -roundPos (-x) := by
  unfold roundBinary64
  rw [if_neg (ne_of_lt hx), if_neg (not_lt.mpr (le_of_lt hx))]

/-- Evaluation of `roundBinary64` at a positive value. -/
theorem roundBinary64_eq {x : ℚ} (e n : ℤ) (h1 : (2 : ℚ) ^ e ≤ x)
    (h2 : x < (2 : ℚ) ^ (e + 1)) (h3 : (n : ℚ) - 1 / 2 < x / 2 ^ (e - 52))
    (h4 : x / 2 ^ (e - 52) < n + 1 / 2) : roundBinary64 x = n * 2 ^ (e - 52) := by
  rw [roundBinary64_of_pos (lt_of_lt_of_le (zpow_pos (by norm_num) e) h1),
    roundPos_eq e n h1 h2 h3 h4]

/-- Evaluation of `roundBinary64` at a negative value. -/
theorem roundBinary64_eq_neg {x : ℚ} (e n : ℤ) (h1 : (2 : ℚ) ^ e ≤ -x)
    (h2 : -x < (2 : ℚ) ^ (e + 1)) (h3 : (n : ℚ) - 1 / 2 < -x / 2 ^ (e - 52))
    (h4 : -x / 2 ^ (e - 52) < n + 1 / 2) : roundBinary64 x = -(n * 2 ^ (e - 52)) := by
  have hx : x < 0 := by
    have := lt_of_lt_of_le (zpow_pos (by norm_num : (0 : ℚ) < 2) e) h1
    linarith
  rw [roundBinary64_of_neg hx, roundPos_eq e n h1 h2 h3 h4]

theorem zpow_binade (e : ℤ) :
    (2 : ℚ) ^ e = 4503599627370496 * 2 ^ (e - 52)
      ∧ (2 : ℚ) ^ (e + 1) = 9007199254740992 * 2 ^ (e - 52)
      ∧ (2 : ℚ) ^ (e + 1 - 52) = 2 * 2 ^ (e - 52)
      ∧ (2 : ℚ) ^ (e + 1 + 1) = 18014398509481984 * 2 ^ (e - 52) := by
  have a1 : (2 : ℚ) ^ e = 2 ^ (e - 52) * 2 ^ (52 : ℤ) := by
    rw [← zpow_add₀ (by norm_num)]
    congr 1
    ring
  have a2 : (2 : ℚ) ^ (e + 1) = 2 ^ (e - 52) * 2 ^ (53 : ℤ) := by
    rw [← zpow_add₀ (by norm_num)]
    congr 1
    ring
  have a3 : (2 : ℚ) ^ (e + 1 - 52) = 2 ^ (e - 52) * 2 ^ (1 : ℤ) := by
    rw [← zpow_add₀ (by norm_num)]
    congr 1
    ring
  have a4 : (2 : ℚ) ^ (e + 1 + 1) = 2 ^ (e - 52) * 2 ^ (54 : ℤ) := by
    rw [← zpow_add₀ (by norm_num)]
    congr 1
    ring
  refine ⟨?_, ?_, ?_, ?_⟩
  · rw [a1]; norm_num; ring
  · rw [a2]; norm_num; ring
  · rw [a3]; norm_num; ring
  · rw [a4]; norm_num; ring

/-- The integer significand chosen by `roundPos` has 53 bits, or is `2^53`. -/
theorem roundPos_significand {x : ℚ} (hx : 0 < x) :
    4503599627370496 ≤ roundHalfEven (x / 2 ^ (Int.log 2 x - 52))
      ∧ roundHalfEven (x / 2 ^ (Int.log 2 x - 52)) ≤ 9007199254740992 := by
  have hu : (0 : ℚ) < 2 ^ (Int.log 2 x - 52) := zpow_pos (by norm_num) _
  have h1 : (2 : ℚ) ^ Int.log 2 x ≤ x := by
    exact_mod_cast Int.zpow_log_le_self (b := 2) (by norm_num) hx
  have h2 : x < (2 : ℚ) ^ (Int.log 2 x + 1) := by
    exact_mod_cast Int.lt_zpow_succ_log_self (b := 2) (by norm_num) x
  obtain ⟨e1, e2, e3, e4⟩ := zpow_binade (Int.log 2 x)
  rw [e1] at h1
  rw [e2] at h2
  have q1 : (4503599627370496 : ℚ) ≤ x / 2 ^ (Int.log 2 x - 52) := (le_div_iff₀ hu).mpr h1
  have q2 : x / 2 ^ (Int.log 2 x - 52) < 9007199254740992 := (div_lt_iff₀ hu).mpr h2
  constructor
  · refine le_trans ?_ (floor_le_roundHalfEven _)
    rw [Int.le_floor]
    exact_mod_cast q1
  · refine le_trans (roundHalfEven_le _) ?_
    have : ⌊x / 2 ^ (Int.log 2 x - 52)⌋ < 9007199254740992 := by
      rw [Int.floor_lt]
      exact_mod_cast q2
    omega

theorem roundPos_pos {x : ℚ} (hx : 0 < x) : 0 < roundPos x := by
  unfold roundPos
  have h := (roundPos_significand hx).1
  have hn : (0 : ℚ) < (roundHalfEven (x / 2 ^ (Int.log 2 x - 52)) : ℚ) := by
    exact_mod_cast lt_of_lt_of_le (by norm_num) h
  exact mul_pos hn (zpow_pos (by norm_num) _)

/-- A value produced by `roundPos` is left unchanged by `roundPos`. -/
theorem roundPos_idem {x : ℚ} (hx : 0 < x) : roundPos (roundPos x) = roundPos x := by
  obtain ⟨n1, n2⟩ := roundPos_significand hx
  have hu : (0 : ℚ) < 2 ^ (Int.log 2 x - 52) := zpow_pos (by norm_num) _
  obtain ⟨e1, e2, e3, e4⟩ := zpow_binade (Int.log 2 x)
  have hdef : roundPos x
      = (roundHalfEven (x / 2 ^ (Int.log 2 x - 52)) : ℚ) * 2 ^ (Int.log 2 x - 52) := rfl
  generalize roundHalfEven (x / 2 ^ (Int.log 2 x - 52)) = n at n1 n2 hdef
  generalize Int.log 2 x = e at hu e1 e2 e3 e4 hdef
  have n1q : (4503599627370496 : ℚ) ≤ n := by exact_mod_cast n1
  have n2q : (n : ℚ) ≤ 9007199254740992 := by exact_mod_cast n2
  rw [hdef]
  by_cases hn : n < 9007199254740992
  · have n3q : (n : ℚ) < 9007199254740992 := by exact_mod_cast hn
    apply roundPos_eq e n
    · rw [e1]
      exact mul_le_mul_of_nonneg_right n1q (le_of_lt hu)
    · rw [e2]
      exact mul_lt_mul_of_pos_right n3q hu
    · rw [mul_div_assoc, div_self (ne_of_gt hu)]
      linarith
    · rw [mul_div_assoc, div_self (ne_of_gt hu)]
      linarith
  · have hn2 : n = 9007199254740992 := by omega
    subst hn2
    have r := roundPos_eq (x := (9007199254740992 : ℤ) * 2 ^ (e - 52)) (e + 1)
      4503599627370496 ?_ ?_ ?_ ?_
    · rw [r, e3]
      push_cast
      ring
    · rw [e2]
      push_cast
      exact le_refl _
    · rw [e4]
      push_cast
      exact mul_lt_mul_of_pos_right (by norm_num) hu
    · rw [e3]
      push_cast
      rw [mul_div_mul_right _ _ (ne_of_gt hu)]
      norm_num
    · rw [e3]
      push_cast
      rw [mul_div_mul_right _ _ (ne_of_gt hu)]
      norm_num

theorem roundBinary64_nonneg (x : ℚ) (hx : 0 ≤ x) : 0 ≤ roundBinary64 x := by
  rcases eq_or_lt_of_le hx with h | h
  · rw [← h, roundBinary64_zero]
  · rw [roundBinary64_of_pos h]
    exact le_of_lt (roundPos_pos h)

theorem roundBinary64_idem (x : ℚ) : roundBinary64 (roundBinary64 x) = roundBinary64 x := by
  rcases lt_trichotomy x 0 with h | h | h
  · have hp : 0 < roundPos (-x) := roundPos_pos (by linarith)
    rw [roundBinary64_of_neg h, roundBinary64_of_neg (by linarith), neg_neg,
      roundPos_idem (by linarith)]
  · rw [h, roundBinary64_zero, roundBinary64_zero]
  · rw [roundBinary64_of_pos h, roundBinary64_of_pos (roundPos_pos h), roundPos_idem h]

theorem roundBinary64_one : roundBinary64 1 = 1 := by
  rw [roundBinary64_eq 0 4503599627370496 (by norm_num) (by norm_num) (by norm_num)
    (by norm_num)]
  norm_num

/-! ## The counting pass: generic lemmas -/

section Engine

variable {K : Type} [LinearOrderedField K] [FloorRing K]

theorem sum_set_getD (h : List Int) (b : Nat) (hb : b < h.length) (c : Int) :
    (h.set b c).sum = h.sum - h.getD b 0 + c := by
  induction h generalizing b with
  | nil => simp at hb
  | cons x xs ih =>
    cases b with
    | zero => simp [add_comm]
    | succ b =>
      have hb2 : b < xs.length := by simpa using hb
      simp only [List.set_cons_succ, List.sum_cons, List.getD_cons_succ, ih b hb2]
      ring

theorem getD_set_eq (h : List Int) (b k : Nat) (hb : b < h.length) (c : Int) :
    (h.set b c).getD k 0 = if b = k then c else h.getD k 0 := by
  simp only [List.getD_eq_getElem?_getD, List.getElem?_set, hb, if_true]
  split_ifs <;> rfl

theorem bump_exact (h : List Int) (b : Int) (hb0 : 0 ≤ b) (hb : b.toNat < h.length) :
    bump addExact h b = some (h.set b.toNat (h.getD b.toNat 0 + 1)) := by
  unfold bump addExact
  rw [if_pos ⟨hb0, hb⟩]
  rfl

theorem bump_int32 (h : List Int) (b : Int) (hb0 : 0 ≤ b) (hb : b.toNat < h.length)
    (hlo : INT_MIN ≤ h.getD b.toNat 0 + 1) (hhi : h.getD b.toNat 0 + 1 ≤ INT_MAX) :
    bump addInt32 h b = some (h.set b.toNat (h.getD b.toNat 0 + 1)) := by
  unfold bump addInt32
  rw [if_pos ⟨hb0, hb⟩, if_pos ⟨hlo, hhi⟩]
  rfl

/-- The nested loops visit the index pairs of `visitedPairs` in order. -/
theorem outerLoop_eq_foldPairs (m : CMath K) (add : Int → Int → Option Int)
    (max_distance bin_size : K) (points : List (K × K)) (h : List Int) :
    outerLoop m add max_distance bin_size points h
      = foldPairs m add max_distance bin_size points (visitedPairs points.length) h := by
  unfold outerLoop foldPairs visitedPairs innerLoop
  generalize List.range points.length = I
  induction I generalizing h with
  | nil => rfl
  | cons i I ih =>
    simp only [List.foldlM_cons, List.flatMap_cons, List.foldlM_append, List.foldlM_map]
    congr 1
    funext h1
    exact ih h1

theorem foldPairs_nil (m : CMath K) (add : Int → Int → Option Int)
    (max_distance bin_size : K) (points : List (K × K)) (h : List Int) :
    foldPairs m add max_distance bin_size points [] h = some h := rfl

theorem foldPairs_cons (m : CMath K) (add : Int → Int → Option Int)
    (max_distance bin_size : K) (points : List (K × K)) (p : Nat × Nat)
    (L : List (Nat × Nat)) (h : List Int) :
    foldPairs m add max_distance bin_size points (p :: L) h
      = (visitPair m add max_distance bin_size points p.1 p.2 h).bind
          (foldPairs m add max_distance bin_size points L) := by
  unfold foldPairs
  rw [List.foldlM_cons]
  rfl

theorem visitPair_out (m : CMath K) (add : Int → Int → Option Int)
    (max_distance bin_size : K) (points : List (K × K)) (i j : Nat) (h : List Int)
    (hd : ¬ pairDist m points i j < max_distance) :
    visitPair m add max_distance bin_size points i j h = some h := by
  unfold visitPair
  exact if_neg hd

theorem visitPair_in (m : CMath K) (add : Int → Int → Option Int)
    (max_distance bin_size : K) (points : List (K × K)) (i j : Nat) (h : List Int)
    (hd : pairDist m points i j < max_distance) :
    visitPair m add max_distance bin_size points i j h
      = bump add h (truncToInt (m.rnd (pairDist m points i j / bin_size))) := by
  unfold visitPair
  exact if_pos hd

/-- With unbounded counters and valid bin indices the loop over any list of pairs
returns a histogram of the same length; bin `k` has grown by the number of listed pairs
that fall into bin `k`, and the sum by the number of listed pairs in range. -/
theorem foldPairs_exact (m : CMath K) (num_bins : Nat) (max_distance bin_size : K)
    (points : List (K × K)) (hIB : InBounds m num_bins max_distance bin_size points)
    (L : List (Nat × Nat)) (h : List Int) (hlen : h.length = num_bins) :
    ∃ h1, foldPairs m addExact max_distance bin_size points L h = some h1
      ∧ h1.length = num_bins
      ∧ (∀ k : Nat, h1.getD k 0 = h.getD k 0
          + (L.countP (fun p => decide (pairDist m points p.1 p.2 < max_distance
              ∧ truncToInt (m.rnd (pairDist m points p.1 p.2 / bin_size)) = (k : Int))) : Nat))
      ∧ h1.sum = h.sum
          + (L.countP (fun p => decide (pairDist m points p.1 p.2 < max_distance)) : Nat) := by
  induction L generalizing h with
  | nil => exact ⟨h, rfl, hlen, by simp, by simp⟩
  | cons p L ih =>
    rw [foldPairs_cons]
    by_cases hd : pairDist m points p.1 p.2 < max_distance
    · obtain ⟨hb0, hb1⟩ := hIB p.1 p.2 hd
      have hb : (truncToInt (m.rnd (pairDist m points p.1 p.2 / bin_size))).toNat < h.length := by
        rw [hlen]; omega
      rw [visitPair_in _ _ _ _ _ _ _ _ hd, bump_exact h _ hb0 hb]
      obtain ⟨h1, e1, l1, g1, s1⟩ := ih (h.set _ (h.getD _ 0 + 1)) (by simpa using hlen)
      refine ⟨h1, e1, l1, ?_, ?_⟩
      · intro k
        rw [g1 k, getD_set_eq h _ k hb, List.countP_cons]
        by_cases hk : (truncToInt (m.rnd (pairDist m points p.1 p.2 / bin_size))).toNat = k
        · have hp : decide (pairDist m points p.1 p.2 < max_distance
              ∧ truncToInt (m.rnd (pairDist m points p.1 p.2 / bin_size)) = (k : Int)) = true :=
            decide_eq_true ⟨hd, by omega⟩
          rw [hp, if_pos hk, if_pos rfl, hk]
          push_cast
          ring
        · have hp : decide (pairDist m points p.1 p.2 < max_distance
              ∧ truncToInt (m.rnd (pairDist m points p.1 p.2 / bin_size)) = (k : Int)) = false :=
            decide_eq_false (fun hh => hk (by omega))
          rw [hp, if_neg hk, if_neg (by decide)]
          simp
      · rw [s1, sum_set_getD h _ hb, List.countP_cons, decide_eq_true hd, if_pos rfl]
        push_cast
        ring
    · rw [visitPair_out _ _ _ _ _ _ _ _ hd]
      obtain ⟨h1, e1, l1, g1, s1⟩ := ih h hlen
      refine ⟨h1, e1, l1, ?_, ?_⟩
      · intro k
        rw [g1 k, List.countP_cons]
        simp [hd]
      · rw [s1, List.countP_cons]
        simp [hd]

theorem truncToInt_of_nonneg {x : K} (hx : 0 ≤ x) : truncToInt x = ⌊x⌋ := if_pos hx

/-- Without rounding, when every distance is non-negative and `num_bins > 0`, every pair
that passes the filter gets a bin index in `0..num_bins-1`
(with `bin_size = max_distance / num_bins`). -/
theorem inBounds_of_nonneg (m : CMath K) (hr : ∀ x : K, m.rnd x = x) (num_bins : Nat)
    (hnb : 0 < num_bins) (max_distance : K) (points : List (K × K))
    (hnn : ∀ i j : Nat, 0 ≤ pairDist m points i j) :
    InBounds m num_bins max_distance (m.rnd (max_distance / (num_bins : K))) points := by
  intro i j hd
  rw [hr, hr]
  have hmax : 0 < max_distance := lt_of_le_of_lt (hnn i j) hd
  have hnbK : (0 : K) < (num_bins : K) := by exact_mod_cast hnb
  have hbs : 0 < max_distance / (num_bins : K) := div_pos hmax hnbK
  have hq : 0 ≤ pairDist m points i j / (max_distance / (num_bins : K)) :=
    div_nonneg (hnn i j) (le_of_lt hbs)
  rw [truncToInt_of_nonneg hq]
  refine ⟨Int.floor_nonneg.mpr hq, ?_⟩
  rw [Int.floor_lt, div_lt_iff₀ hbs]
  have e : ((num_bins : Int) : K) * (max_distance / (num_bins : K)) = max_distance := by
    push_cast
    field_simp
  rw [e]
  exact hd

end Engine

/-! ## The order of the visits -/

theorem mem_visitedPairs (n i j : Nat) : (i, j) ∈ visitedPairs n ↔ i < j ∧ j < n := by
  simp only [visitedPairs, List.mem_flatMap, List.mem_range, List.mem_map,
    List.mem_range'_1, Prod.mk.injEq]
  constructor
  · rintro ⟨a, ha, b, hb, rfl, rfl⟩
    omega
  · rintro ⟨h1, h2⟩
    exact ⟨i, by omega, j, by omega, rfl, rfl⟩

theorem nodup_visitedPairs (n : Nat) : (visitedPairs n).Nodup := by
  unfold visitedPairs
  rw [List.nodup_flatMap]
  constructor
  · intro i _
    refine List.Nodup.map ?_ (List.nodup_range' _ _)
    intro a b hab
    exact (Prod.mk.inj hab).2
  · refine List.Pairwise.imp ?_ (List.nodup_range n)
    intro a b hab p hp1 hp2
    simp only [List.mem_map] at hp1 hp2
    obtain ⟨_, _, rfl⟩ := hp1
    obtain ⟨_, _, h2⟩ := hp2
    exact hab (Prod.mk.inj h2).1.symm

theorem length_visitedPairs (n : Nat) : (visitedPairs n).length = n * (n - 1) / 2 := by
  have key : ∀ n, (List.map (fun i => n - (i + 1)) (List.range n)).sum = n.choose 2 := by
    intro n
    induction n with
    | zero => rfl
    | succ n ih =>
      rw [List.range_succ_eq_map, List.map_cons, List.map_map, List.sum_cons]
      have e : ((fun i => n + 1 - (i + 1)) ∘ Nat.succ) = fun i => n - (i + 1) := by
        funext i
        simp only [Function.comp, Nat.succ_eq_add_one]
        omega
      rw [e, ih]
      have h2 : (n + 1).choose 2 = n.choose 1 + n.choose 2 := Nat.choose_succ_succ n 1
      rw [h2, Nat.choose_one_right]
      omega
  unfold visitedPairs
  rw [List.length_flatMap, ← Nat.choose_two_right, ← key n]
  congr 1
  apply List.map_congr_left
  intro i _
  simp

/-- Counting the visited pairs with a property is counting the index pairs `i < j < n`
with that property. -/
theorem countP_visitedPairs (n : Nat) (P : Nat × Nat → Prop) [DecidablePred P] :
    (visitedPairs n).countP (fun p => decide (P p))
      = ((Finset.range n ×ˢ Finset.range n).filter (fun p => p.1 < p.2 ∧ P p)).card := by
  have hset : (visitedPairs n).toFinset
      = (Finset.range n ×ˢ Finset.range n).filter (fun p => p.1 < p.2) := by
    ext ⟨i, j⟩
    simp only [List.mem_toFinset, mem_visitedPairs, Finset.mem_filter, Finset.mem_product,
      Finset.mem_range]
    omega
  rw [List.countP_eq_length_filter,
    ← List.toFinset_card_of_nodup ((nodup_visitedPairs n).filter _),
    List.toFinset_filter, hset, Finset.filter_filter]
  congr 1
  apply Finset.filter_congr
  intro p _
  simp

/-! ## The counting pass with unbounded counters -/

section Pass

variable {K : Type} [LinearOrderedField K] [FloorRing K]

theorem getElem?_of_getD (h : List Int) (k : Nat) (hk : k < h.length) :
    h[k]? = some (h.getD k 0) := by
  rw [List.getD_eq_getElem?_getD, List.getElem?_eq_getElem hk]
  rfl

theorem countingPass_eq_foldPairs (m : CMath K) (add : Int → Int → Option Int)
    (num_bins : Nat) (max_distance : K) (points : List (K × K)) :
    countingPass m add num_bins max_distance points
      = foldPairs m add max_distance (m.rnd (max_distance / (num_bins : K))) points
          (visitedPairs points.length) (List.replicate num_bins 0) := by
  unfold countingPass
  exact outerLoop_eq_foldPairs m add max_distance _ points _

/-- With valid bin indices the pass with unbounded counters returns a histogram of
`num_bins` counters; counter `k` is the number of visited pairs falling into bin `k` and
the sum of the counters is the number of visited pairs in range. -/
theorem countingPass_exact (m : CMath K) (num_bins : Nat) (max_distance : K)
    (points : List (K × K))
    (hIB : InBounds m num_bins max_distance (m.rnd (max_distance / (num_bins : K))) points) :
    ∃ h, countingPass m addExact num_bins max_distance points = some h
      ∧ h.length = num_bins
      ∧ (∀ k : Nat, h.getD k 0
          = ((visitedPairs points.length).countP
              (fun p => decide (pairDist m points p.1 p.2 < max_distance
                ∧ truncToInt (m.rnd (pairDist m points p.1 p.2
                  / m.rnd (max_distance / (num_bins : K))))
                    = (k : Int))) : Nat))
      ∧ h.sum = ((visitedPairs points.length).countP
              (fun p => decide (pairDist m points p.1 p.2 < max_distance)) : Nat) := by
  obtain ⟨h, e, l, g, s⟩ := foldPairs_exact m num_bins max_distance _ points hIB
    (visitedPairs points.length) (List.replicate num_bins 0) (List.length_replicate _ _)
  refine ⟨h, ?_, l, ?_, ?_⟩
  · rw [countingPass_eq_foldPairs]
    exact e
  · intro k
    rw [g k]
    have z : (List.replicate num_bins (0 : Int)).getD k 0 = 0 := by
      rw [List.getD_eq_getElem?_getD, List.getElem?_replicate]
      split_ifs <;> rfl
    rw [z, zero_add]
  · rw [s]
    have z : (List.replicate num_bins (0 : Int)).sum = 0 := by simp
    rw [z, zero_add]

theorem countedPairs_exact (h : List Int) : countedPairs addExact h = some h.sum := by
  have key : ∀ (l : List Int) (a : Int), l.foldlM addExact a = some (a + l.sum) := by
    intro l
    induction l with
    | nil => intro a; simp
    | cons x xs ih =>
      intro a
      rw [List.foldlM_cons]
      show Option.bind (addExact a x) _ = _
      simp only [addExact, Option.some_bind, ih, List.sum_cons, add_assoc]
  unfold countedPairs
  rw [key, zero_add]

end Pass

theorem inBounds_real (num_bins : Nat) (hnb : 0 < num_bins) (max_distance : ℝ)
    (points : List (ℝ × ℝ)) :
    InBounds realMath num_bins max_distance (max_distance / (num_bins : ℝ)) points :=
  inBounds_of_nonneg realMath (fun _ => rfl) num_bins hnb max_distance points
    (fun _ _ => angularDistance_real_nonneg _ _ _ _)

theorem pairDist_real_nonneg (points : List (ℝ × ℝ)) (i j : Nat) :
    0 ≤ pairDist realMath points i j := angularDistance_real_nonneg _ _ _ _

/-- For a non-negative distance and a positive bin size, `floor (d / bin_size) = k` says
`k * bin_size ≤ d < (k + 1) * bin_size`. -/
theorem binPairs_eq_interval (dist : Nat → Nat → ℝ) (n : Nat) (max_distance bin_size : ℝ)
    (hbs : 0 < bin_size) (k : Nat) :
    binPairs dist n max_distance bin_size k
      = binPairsInterval dist n max_distance bin_size k := by
  unfold binPairs binPairsInterval
  apply Finset.filter_congr
  intro p _
  rw [Int.floor_eq_iff, le_div_iff₀ hbs, div_lt_iff₀ hbs]
  simp

/-- The pass over real coordinates with unbounded counters, for any `num_bins > 0`:
it returns a histogram whose counter `k` is the number of index pairs `i < j < n` in
range with `floor (d / bin_size) = k`, and whose sum is the number of pairs in range. -/
theorem countingPass_real (num_bins : Nat) (hnb : 0 < num_bins) (max_distance : ℝ)
    (points : List (ℝ × ℝ)) :
    ∃ h, countingPass realMath addExact num_bins max_distance points = some h
      ∧ h.length = num_bins
      ∧ (∀ k : Nat, h.getD k 0
          = ((binPairs (pairDist realMath points) points.length max_distance
              (max_distance / (num_bins : ℝ)) k).card : Int))
      ∧ h.sum = ((inRangePairs (pairDist realMath points) points.length max_distance).card
          : Int) := by
  obtain ⟨h, e, l, g, s⟩ := countingPass_exact realMath num_bins max_distance points
    (inBounds_real num_bins hnb max_distance points)
  refine ⟨h, e, l, ?_, ?_⟩
  · intro k
    rw [g k, countP_visitedPairs]
    unfold binPairs
    congr 2
    apply Finset.filter_congr
    intro p _
    by_cases hd : pairDist realMath points p.1 p.2 < max_distance
    · have hq : 0 ≤ pairDist realMath points p.1 p.2 / (max_distance / (num_bins : ℝ)) := by
        have hmax : 0 < max_distance := lt_of_le_of_lt (pairDist_real_nonneg points _ _) hd
        have hnbK : (0 : ℝ) < (num_bins : ℝ) := by exact_mod_cast hnb
        exact div_nonneg (pairDist_real_nonneg points _ _) (le_of_lt (div_pos hmax hnbK))
      rw [realMath_rnd, realMath_rnd, truncToInt_of_nonneg hq]
    · simp [hd]
  · rw [s, countP_visitedPairs]
    rfl

/-! ## The reference configuration under any rounding -/

section Laws

variable {K : Type} [LinearOrderedField K]

theorem angularDistance_nonneg (m : CMath K) (hm : FloatLaws m) (a b c d : K) :
    0 ≤ angularDistance m a b c d := by
  unfold angularDistance
  exact hm.rnd_nonneg _ (div_nonneg (hm.acos_nonneg _ (clampCos_ge _) (clampCos_le _))
    (le_of_lt hm.deg_pos))

theorem angularDistance_rnd (m : CMath K) (hm : FloatLaws m) (a b c d : K) :
    m.rnd (angularDistance m a b c d) = angularDistance m a b c d := by
  unfold angularDistance
  exact hm.rnd_idem _

/-- With `num_bins = 10` and `max_distance = 10.0` the computed `bin_size` is exactly 1. -/
theorem bin_size_reference (m : CMath K) (hm : FloatLaws m) :
    m.rnd ((10 : K) / ((10 : Nat) : K)) = 1 := by
  have h : (10 : K) / ((10 : Nat) : K) = 1 := by norm_num
  rw [h, hm.rnd_one]

/-- In the reference configuration the bin index is the integer part of the computed
distance: dividing by `bin_size = 1` and rounding change nothing. -/
theorem binIndex_reference [FloorRing K] (m : CMath K) (hm : FloatLaws m) (a b c d : K) :
    truncToInt (m.rnd (angularDistance m a b c d / m.rnd ((10 : K) / ((10 : Nat) : K))))
      = ⌊angularDistance m a b c d⌋ := by
  rw [bin_size_reference m hm, div_one, angularDistance_rnd m hm,
    truncToInt_of_nonneg (angularDistance_nonneg m hm a b c d)]

theorem inBounds_reference [FloorRing K] (m : CMath K) (hm : FloatLaws m)
    (points : List (K × K)) :
    InBounds m 10 10 (m.rnd ((10 : K) / ((10 : Nat) : K))) points := by
  intro i j hd
  unfold pairDist at hd ⊢
  rw [binIndex_reference m hm]
  refine ⟨Int.floor_nonneg.mpr (angularDistance_nonneg m hm _ _ _ _), ?_⟩
  rw [Int.floor_lt]
  exact_mod_cast hd

end Laws

/-! ## The two environments -/

theorem floatLaws_realMath : FloatLaws realMath where
  rnd_nonneg := fun _ h => h
  rnd_idem := fun _ => rfl
  rnd_one := rfl
  acos_nonneg := fun x _ _ => Real.arccos_nonneg x
  deg_pos := DEGREE_TO_RAD_real_pos

theorem binary64_rnd : binary64.rnd = roundBinary64 := rfl

theorem binary64_sin : binary64.sin = sinTable := rfl

theorem binary64_cos : binary64.cos = cosTable := rfl

theorem binary64_acos : binary64.acos = acosTable := rfl

/-- The `double` value of `DEGREE_TO_RAD`, about `0.017453292519943295`. -/
theorem DEGREE_TO_RAD_binary64 : DEGREE_TO_RAD binary64 = 5030569068109113 / 2 ^ 58 := by
  unfold DEGREE_TO_RAD
  show roundBinary64 (M_PI_64 / 180) = _
  unfold M_PI_64
  rw [roundBinary64_eq (x := 884279719003555 / 2 ^ 48 / 180)
    (-6) 5030569068109113 (by norm_num) (by norm_num) (by norm_num) (by norm_num)]
  norm_num

theorem acosTable_nonneg (x : ℚ) : 0 ≤ acosTable x := by
  unfold acosTable
  split_ifs <;> norm_num

theorem floatLaws_binary64 : FloatLaws binary64 where
  rnd_nonneg := roundBinary64_nonneg
  rnd_idem := roundBinary64_idem
  rnd_one := roundBinary64_one
  acos_nonneg := fun x _ _ => acosTable_nonneg x
  deg_pos := by
    rw [DEGREE_TO_RAD_binary64]
    norm_num

/-- In double arithmetic `angularDistance(0, 0, 10, 0)` is `5629499534213127 / 2^49`,
about `10.000000000000012`. -/
theorem angularDistance_binary64_ten :
    angularDistance binary64 0 0 10 0 = 5629499534213127 / 2 ^ 49 := by
  have s1 : roundBinary64 (0 * (5030569068109113 / 2 ^ 58))
      = 0 := by
    rw [show (0 * (5030569068109113 / 2 ^ 58) : ℚ) = 0 by norm_num]
    exact roundBinary64_zero
  have s3 : roundBinary64 (10 * (5030569068109113 / 2 ^ 58))
      = 6288211335136391 / 2 ^ 55 := by
    rw [roundBinary64_eq (x := 10 * (5030569068109113 / 2 ^ 58))
      (-3) 6288211335136391 (by norm_num) (by norm_num) (by norm_num) (by norm_num)]
    norm_num
  have s5 : sinTable (0)
      = 0 := by
    unfold sinTable
    norm_num
  have s7 : cosTable (0)
      = 1 := by
    unfold cosTable
    norm_num
  have s9 : roundBinary64 (0 - (6288211335136391 / 2 ^ 55))
      = -6288211335136391 / 2 ^ 55 := by
    rw [roundBinary64_eq_neg (x := 0 - (6288211335136391 / 2 ^ 55))
      (-3) 6288211335136391 (by norm_num) (by norm_num) (by norm_num) (by norm_num)]
    norm_num
  have s10 : cosTable (-6288211335136391 / 2 ^ 55)
      = 8870359658994711 / 2 ^ 53 := by
    unfold cosTable
    norm_num
  have s11 : roundBinary64 (0 * 0)
      = 0 := by
    rw [show (0 * 0 : ℚ) = 0 by norm_num]
    exact roundBinary64_zero
  have s12 : roundBinary64 (1 * 1)
      = 1 := by
    rw [roundBinary64_eq (x := 1 * 1)
      0 4503599627370496 (by norm_num) (by norm_num) (by norm_num) (by norm_num)]
    norm_num
  have s13 : roundBinary64 (1 * (8870359658994711 / 2 ^ 53))
      = 8870359658994711 / 2 ^ 53 := by
    rw [roundBinary64_eq (x := 1 * (8870359658994711 / 2 ^ 53))
      (-1) 8870359658994711 (by norm_num) (by norm_num) (by norm_num) (by norm_num)]
    norm_num
  have s14 : roundBinary64 (0 + (8870359658994711 / 2 ^ 53))
      = 8870359658994711 / 2 ^ 53 := by
    rw [roundBinary64_eq (x := 0 + (8870359658994711 / 2 ^ 53))
      (-1) 8870359658994711 (by norm_num) (by norm_num) (by norm_num) (by norm_num)]
    norm_num
  have s15 : clampCos (8870359658994711 / 2 ^ 53 : ℚ)
      = 8870359658994711 / 2 ^ 53 := clampCos_id (by norm_num) (by norm_num)
  have s16 : acosTable (8870359658994711 / 2 ^ 53)
      = 6288211335136399 / 2 ^ 55 := by
    unfold acosTable
    norm_num
  have s17 : roundBinary64 ((6288211335136399 / 2 ^ 55) / (5030569068109113 / 2 ^ 58))
      = 5629499534213127 / 2 ^ 49 := by
    rw [roundBinary64_eq (x := (6288211335136399 / 2 ^ 55) / (5030569068109113 / 2 ^ 58))
      3 5629499534213127 (by norm_num) (by norm_num) (by norm_num) (by norm_num)]
    norm_num
  unfold angularDistance cosAngle
  simp only [DEGREE_TO_RAD_binary64, binary64_rnd, binary64_sin, binary64_cos, binary64_acos]
  rw [s1, s3, s5, s7, s9, s10, s11, s12, s13, s14, s15, s16, s17]

/-- In double arithmetic `angularDistance(0, -5, 0, 5)` is `2814749767106553 / 2^48`,
about `9.999999999999975`, although the two points are exactly 10 degrees apart. -/
theorem angularDistance_binary64_boundary :
    angularDistance binary64 0 (-5) 0 5 = 2814749767106553 / 2 ^ 48 := by
  have s1 : roundBinary64 (0 * (5030569068109113 / 2 ^ 58))
      = 0 := by
    rw [show (0 * (5030569068109113 / 2 ^ 58) : ℚ) = 0 by norm_num]
    exact roundBinary64_zero
  have s2 : roundBinary64 ((-5) * (5030569068109113 / 2 ^ 58))
      = -6288211335136391 / 2 ^ 56 := by
    rw [roundBinary64_eq_neg (x := (-5) * (5030569068109113 / 2 ^ 58))
      (-4) 6288211335136391 (by norm_num) (by norm_num) (by norm_num) (by norm_num)]
    norm_num
  have s4 : roundBinary64 (5 * (5030569068109113 / 2 ^ 58))
      = 6288211335136391 / 2 ^ 56 := by
    rw [roundBinary64_eq (x := 5 * (5030569068109113 / 2 ^ 58))
      (-4) 6288211335136391 (by norm_num) (by norm_num) (by norm_num) (by norm_num)]
    norm_num
  have s5 : sinTable (-6288211335136391 / 2 ^ 56)
      = -3140116564492417 / 2 ^ 55 := by
    unfold sinTable
    norm_num
  have s6 : sinTable (6288211335136391 / 2 ^ 56)
      = 3140116564492417 / 2 ^ 55 := by
    unfold sinTable
    norm_num
  have s7 : cosTable (-6288211335136391 / 2 ^ 56)
      = 4486462071114449 / 2 ^ 52 := by
    unfold cosTable
    norm_num
  have s8 : cosTable (6288211335136391 / 2 ^ 56)
      = 4486462071114449 / 2 ^ 52 := by
    unfold cosTable
    norm_num
  have s9 : roundBinary64 (0 - 0)
      = 0 := by
    rw [show (0 - 0 : ℚ) = 0 by norm_num]
    exact roundBinary64_zero
  have s10 : cosTable (0)
      = 1 := by
    unfold cosTable
    norm_num
  have s11 : roundBinary64 ((-3140116564492417 / 2 ^ 55) * (3140116564492417 / 2 ^ 55))
      = -1094716765970245 / 2 ^ 57 := by
    rw [roundBinary64_eq_neg (x := (-3140116564492417 / 2 ^ 55) * (3140116564492417 / 2 ^ 55))
      (-8) 8757734127761960 (by norm_num) (by norm_num) (by norm_num) (by norm_num)]
    norm_num
  have s12 : roundBinary64 ((4486462071114449 / 2 ^ 52) * (4486462071114449 / 2 ^ 52))
      = 2234694864216963 / 2 ^ 51 := by
    rw [roundBinary64_eq (x := (4486462071114449 / 2 ^ 52) * (4486462071114449 / 2 ^ 52))
      (-1) 8938779456867852 (by norm_num) (by norm_num) (by norm_num) (by norm_num)]
    norm_num
  have s13 : roundBinary64 ((2234694864216963 / 2 ^ 51) * 1)
      = 2234694864216963 / 2 ^ 51 := by
    rw [roundBinary64_eq (x := (2234694864216963 / 2 ^ 51) * 1)
      (-1) 8938779456867852 (by norm_num) (by norm_num) (by norm_num) (by norm_num)]
    norm_num
  have s14 : roundBinary64 ((-1094716765970245 / 2 ^ 57) + (2234694864216963 / 2 ^ 51))
      = 1108794957374339 / 2 ^ 50 := by
    rw [roundBinary64_eq (x := (-1094716765970245 / 2 ^ 57) + (2234694864216963 / 2 ^ 51))
      (-1) 8870359658994712 (by norm_num) (by norm_num) (by norm_num) (by norm_num)]
    norm_num
  have s15 : clampCos (1108794957374339 / 2 ^ 50 : ℚ)
      = 1108794957374339 / 2 ^ 50 := clampCos_id (by norm_num) (by norm_num)
  have s16 : acosTable (1108794957374339 / 2 ^ 50)
      = 786026416892047 / 2 ^ 52 := by
    unfold acosTable
    norm_num
  have s17 : roundBinary64 ((786026416892047 / 2 ^ 52) / (5030569068109113 / 2 ^ 58))
      = 2814749767106553 / 2 ^ 48 := by
    rw [roundBinary64_eq (x := (786026416892047 / 2 ^ 52) / (5030569068109113 / 2 ^ 58))
      3 5629499534213106 (by norm_num) (by norm_num) (by norm_num) (by norm_num)]
    norm_num
  unfold angularDistance cosAngle
  simp only [DEGREE_TO_RAD_binary64, binary64_rnd, binary64_sin, binary64_cos, binary64_acos]
  rw [s1, s2, s4, s5, s6, s7, s8, s9, s10, s11, s12, s13, s14, s15, s16, s17]

/-- In double arithmetic `angularDistance(0, 0, 22, 0)` is `6192449487634431 / 2^48`,
the largest `double` below `22`. -/
theorem angularDistance_binary64_twentytwo :
    angularDistance binary64 0 0 22 0 = 6192449487634431 / 2 ^ 48 := by
  have s1 : roundBinary64 (0 * (5030569068109113 / 2 ^ 58))
      = 0 := by
    rw [show (0 * (5030569068109113 / 2 ^ 58) : ℚ) = 0 by norm_num]
    exact roundBinary64_zero
  have s3 : roundBinary64 (22 * (5030569068109113 / 2 ^ 58))
      = 3458516234325015 / 2 ^ 53 := by
    rw [roundBinary64_eq (x := 22 * (5030569068109113 / 2 ^ 58))
      (-2) 6917032468650030 (by norm_num) (by norm_num) (by norm_num) (by norm_num)]
    norm_num
  have s5 : sinTable (0)
      = 0 := by
    unfold sinTable
    norm_num
  have s7 : cosTable (0)
      = 1 := by
    unfold cosTable
    norm_num
  have s9 : roundBinary64 (0 - (3458516234325015 / 2 ^ 53))
      = -3458516234325015 / 2 ^ 53 := by
    rw [roundBinary64_eq_neg (x := 0 - (3458516234325015 / 2 ^ 53))
      (-2) 6917032468650030 (by norm_num) (by norm_num) (by norm_num) (by norm_num)]
    norm_num
  have s10 : cosTable (-3458516234325015 / 2 ^ 53)
      = 1043916215482731 / 2 ^ 50 := by
    unfold cosTable
    norm_num
  have s11 : roundBinary64 (0 * 0)
      = 0 := by
    rw [show (0 * 0 : ℚ) = 0 by norm_num]
    exact roundBinary64_zero
  have s12 : roundBinary64 (1 * 1)
      = 1 := by
    rw [roundBinary64_eq (x := 1 * 1)
      0 4503599627370496 (by norm_num) (by norm_num) (by norm_num) (by norm_num)]
    norm_num
  have s13 : roundBinary64 (1 * (1043916215482731 / 2 ^ 50))
      = 1043916215482731 / 2 ^ 50 := by
    rw [roundBinary64_eq (x := 1 * (1043916215482731 / 2 ^ 50))
      (-1) 8351329723861848 (by norm_num) (by norm_num) (by norm_num) (by norm_num)]
    norm_num
  have s14 : roundBinary64 (0 + (1043916215482731 / 2 ^ 50))
      = 1043916215482731 / 2 ^ 50 := by
    rw [roundBinary64_eq (x := 0 + (1043916215482731 / 2 ^ 50))
      (-1) 8351329723861848 (by norm_num) (by norm_num) (by norm_num) (by norm_num)]
    norm_num
  have s15 : clampCos (1043916215482731 / 2 ^ 50 : ℚ)
      = 1043916215482731 / 2 ^ 50 := clampCos_id (by norm_num) (by norm_num)
  have s16 : acosTable (1043916215482731 / 2 ^ 50)
      = 6917032468650029 / 2 ^ 54 := by
    unfold acosTable
    norm_num
  have s17 : roundBinary64 ((6917032468650029 / 2 ^ 54) / (5030569068109113 / 2 ^ 58))
      = 6192449487634431 / 2 ^ 48 := by
    rw [roundBinary64_eq (x := (6917032468650029 / 2 ^ 54) / (5030569068109113 / 2 ^ 58))
      4 6192449487634431 (by norm_num) (by norm_num) (by norm_num) (by norm_num)]
    norm_num
  unfold angularDistance cosAngle
  simp only [DEGREE_TO_RAD_binary64, binary64_rnd, binary64_sin, binary64_cos, binary64_acos]
  rw [s1, s3, s5, s7, s9, s10, s11, s12, s13, s14, s15, s16, s17]

/-! ## The library tables of `binary64` are correctly rounded -/

theorem I_pow_eq (m : ℕ) : Complex.I ^ m = (cycRe m : ℂ) + (cycIm m : ℂ) * Complex.I := by
  induction m using Nat.strong_induction_on with
  | _ m ih =>
    rcases Nat.lt_or_ge m 4 with h | h
    · interval_cases m
      · simp [cycRe, cycIm]
      · simp [cycRe, cycIm]
      · simp [cycRe, cycIm]
      · rw [show (3 : ℕ) = 2 + 1 by rfl, pow_succ]
        simp [cycRe, cycIm]
    · obtain ⟨k, rfl⟩ : ∃ k, m = k + 4 := ⟨m - 4, by omega⟩
      rw [pow_add, Complex.I_pow_four, mul_one, ih k (by omega)]
      simp [cycRe, cycIm]

theorem taylor_cos_sin (x : ℝ) (hx : |x| ≤ 1) (n : ℕ) (hn : 0 < n) :
    |Real.cos x - ∑ m ∈ Finset.range n, x ^ m / m.factorial * cycRe m|
        ≤ |x| ^ n * ((n.succ : ℝ) * (n.factorial * n : ℝ)⁻¹)
      ∧ |Real.sin x - ∑ m ∈ Finset.range n, x ^ m / m.factorial * cycIm m|
        ≤ |x| ^ n * ((n.succ : ℝ) * (n.factorial * n : ℝ)⁻¹) := by
  have habs : Complex.abs ((x : ℂ) * Complex.I) = |x| := by simp
  have hb := Complex.exp_bound (x := (x : ℂ) * Complex.I) (by rw [habs]; exact hx) hn
  rw [habs] at hb
  have hterm : ∀ m : ℕ, ((x : ℂ) * Complex.I) ^ m / (m.factorial : ℂ)
      = ((x ^ m / m.factorial * cycRe m : ℝ) : ℂ)
        + ((x ^ m / m.factorial * cycIm m : ℝ) : ℂ) * Complex.I := by
    intro m
    rw [mul_pow, I_pow_eq]
    push_cast
    ring
  have hsum : ∑ m ∈ Finset.range n, ((x : ℂ) * Complex.I) ^ m / (m.factorial : ℂ)
      = ((∑ m ∈ Finset.range n, x ^ m / m.factorial * cycRe m : ℝ) : ℂ)
        + ((∑ m ∈ Finset.range n, x ^ m / m.factorial * cycIm m : ℝ) : ℂ) * Complex.I := by
    rw [Finset.sum_congr rfl (fun m _ => hterm m), Finset.sum_add_distrib, ← Finset.sum_mul]
    push_cast
    rfl
  rw [hsum, Complex.exp_mul_I, ← Complex.ofReal_cos, ← Complex.ofReal_sin] at hb
  set C := ∑ m ∈ Finset.range n, x ^ m / m.factorial * (cycRe m : ℝ)
  set S := ∑ m ∈ Finset.range n, x ^ m / m.factorial * (cycIm m : ℝ)
  have hz : ((Real.cos x : ℂ) + (Real.sin x : ℂ) * Complex.I) - ((C : ℂ) + (S : ℂ) * Complex.I)
      = ((Real.cos x - C : ℝ) : ℂ) + ((Real.sin x - S : ℝ) : ℂ) * Complex.I := by
    push_cast
    ring
  rw [hz] at hb
  constructor
  · refine le_trans ?_ hb
    have := Complex.abs_re_le_abs (((Real.cos x - C : ℝ) : ℂ) + ((Real.sin x - S : ℝ) : ℂ) * Complex.I)
    simpa using this
  · refine le_trans ?_ hb
    have := Complex.abs_im_le_abs (((Real.cos x - C : ℝ) : ℂ) + ((Real.sin x - S : ℝ) : ℂ) * Complex.I)
    simpa using this


theorem sin_near (x y h : ℚ) (n : ℕ) (hn : 0 < n) (he : Even n) (hx1 : -1 ≤ x) (hx2 : x ≤ 1)
    (hlo : y - h + x ^ n * (((n : ℚ) + 1) * (n.factorial * n : ℚ)⁻¹)
      < ∑ m ∈ Finset.range n, x ^ m / m.factorial * cycIm m)
    (hhi : ∑ m ∈ Finset.range n, x ^ m / m.factorial * cycIm m
      < y + h - x ^ n * (((n : ℚ) + 1) * (n.factorial * n : ℚ)⁻¹)) :
    |Real.sin (x : ℝ) - (y : ℝ)| < (h : ℝ) := by
  have hx : |(x : ℝ)| ≤ 1 := by
    rw [abs_le]
    exact ⟨by exact_mod_cast hx1, by exact_mod_cast hx2⟩
  have t := (taylor_cos_sin (x : ℝ) hx n hn).2
  rw [he.pow_abs, abs_le] at t
  push_cast at t
  have hlo2 : ((y - h + x ^ n * (((n : ℚ) + 1) * (n.factorial * n : ℚ)⁻¹) : ℚ) : ℝ)
      < ((∑ m ∈ Finset.range n, x ^ m / m.factorial * cycIm m : ℚ) : ℝ) := by
    exact_mod_cast hlo
  have hhi2 : ((∑ m ∈ Finset.range n, x ^ m / m.factorial * cycIm m : ℚ) : ℝ)
      < ((y + h - x ^ n * (((n : ℚ) + 1) * (n.factorial * n : ℚ)⁻¹) : ℚ) : ℝ) := by
    exact_mod_cast hhi
  push_cast at hlo2 hhi2
  rw [abs_lt]
  constructor <;> linarith [t.1, t.2]

theorem cos_enclosure (x : ℚ) (n : ℕ) (hn : 0 < n) (he : Even n) (hx1 : -1 ≤ x) (hx2 : x ≤ 1) :
    (((∑ m ∈ Finset.range n, x ^ m / m.factorial * cycRe m)
        - x ^ n * (((n : ℚ) + 1) * (n.factorial * n : ℚ)⁻¹) : ℚ) : ℝ) ≤ Real.cos (x : ℝ)
      ∧ Real.cos (x : ℝ) ≤ (((∑ m ∈ Finset.range n, x ^ m / m.factorial * cycRe m)
        + x ^ n * (((n : ℚ) + 1) * (n.factorial * n : ℚ)⁻¹) : ℚ) : ℝ) := by
  have hx : |(x : ℝ)| ≤ 1 := by
    rw [abs_le]
    exact ⟨by exact_mod_cast hx1, by exact_mod_cast hx2⟩
  have t := (taylor_cos_sin (x : ℝ) hx n hn).1
  rw [he.pow_abs, abs_le] at t
  push_cast at t ⊢
  constructor <;> linarith [t.1, t.2]

theorem cos_near (x y h : ℚ) (n : ℕ) (hn : 0 < n) (he : Even n) (hx1 : -1 ≤ x) (hx2 : x ≤ 1)
    (hlo : y - h + x ^ n * (((n : ℚ) + 1) * (n.factorial * n : ℚ)⁻¹)
      < ∑ m ∈ Finset.range n, x ^ m / m.factorial * cycRe m)
    (hhi : ∑ m ∈ Finset.range n, x ^ m / m.factorial * cycRe m
      < y + h - x ^ n * (((n : ℚ) + 1) * (n.factorial * n : ℚ)⁻¹)) :
    |Real.cos (x : ℝ) - (y : ℝ)| < (h : ℝ) := by
  obtain ⟨t1, t2⟩ := cos_enclosure x n hn he hx1 hx2
  have hlo2 : ((y - h + x ^ n * (((n : ℚ) + 1) * (n.factorial * n : ℚ)⁻¹) : ℚ) : ℝ)
      < ((∑ m ∈ Finset.range n, x ^ m / m.factorial * cycRe m : ℚ) : ℝ) := by
    exact_mod_cast hlo
  have hhi2 : ((∑ m ∈ Finset.range n, x ^ m / m.factorial * cycRe m : ℚ) : ℝ)
      < ((y + h - x ^ n * (((n : ℚ) + 1) * (n.factorial * n : ℚ)⁻¹) : ℚ) : ℝ) := by
    exact_mod_cast hhi
  push_cast at hlo2 hhi2 t1 t2
  rw [abs_lt]
  constructor <;> linarith

theorem arccos_near (c a h : ℚ) (n : ℕ) (hn : 0 < n) (he : Even n) (hc1 : -1 ≤ c) (hc2 : c ≤ 1)
    (hh : 0 ≤ h) (ha1 : 0 ≤ a - h) (ha2 : a + h ≤ 1)
    (hlo : (∑ m ∈ Finset.range n, (a + h) ^ m / m.factorial * cycRe m)
        + (a + h) ^ n * (((n : ℚ) + 1) * (n.factorial * n : ℚ)⁻¹) < c)
    (hhi : c < (∑ m ∈ Finset.range n, (a - h) ^ m / m.factorial * cycRe m)
        - (a - h) ^ n * (((n : ℚ) + 1) * (n.factorial * n : ℚ)⁻¹)) :
    |Real.arccos (c : ℝ) - (a : ℝ)| < (h : ℝ) := by
  obtain ⟨_, u2⟩ := cos_enclosure (a + h) n hn he (by linarith) ha2
  obtain ⟨l1, _⟩ := cos_enclosure (a - h) n hn he (by linarith) (by linarith)
  have hpi : (3 : ℝ) < Real.pi := Real.pi_gt_three
  have A1 : (0 : ℝ) ≤ ((a - h : ℚ) : ℝ) := by exact_mod_cast ha1
  have A2 : ((a + h : ℚ) : ℝ) ≤ 1 := by exact_mod_cast ha2
  have H : (0 : ℝ) ≤ (h : ℝ) := by exact_mod_cast hh
  have e1 : Real.cos ((a + h : ℚ) : ℝ) < (c : ℝ) := lt_of_le_of_lt u2 (by exact_mod_cast hlo)
  have e2 : (c : ℝ) < Real.cos ((a - h : ℚ) : ℝ) := lt_of_lt_of_le (by exact_mod_cast hhi) l1
  have C1 : (-1 : ℝ) ≤ (c : ℝ) := by exact_mod_cast hc1
  have C2 : (c : ℝ) ≤ 1 := by exact_mod_cast hc2
  push_cast at A1 A2 e1 e2
  have r1 : Real.arccos (c : ℝ) < (a : ℝ) + (h : ℝ) := by
    have := Real.strictAntiOn_arccos ⟨Real.neg_one_le_cos _, Real.cos_le_one _⟩ ⟨C1, C2⟩ e1
    rwa [Real.arccos_cos (by linarith) (by linarith)] at this
  have r2 : (a : ℝ) - (h : ℝ) < Real.arccos (c : ℝ) := by
    have := Real.strictAntiOn_arccos ⟨C1, C2⟩ ⟨Real.neg_one_le_cos _, Real.cos_le_one _⟩ e2
    rwa [Real.arccos_cos (by linarith) (by linarith)] at this
  rw [abs_lt]
  constructor <;> linarith

theorem binary64_table_entry_1 :
    ((sinTable 0 : ℚ) : ℝ) = Real.sin 0 := by
  unfold sinTable
  norm_num

theorem binary64_table_entry_2 :
    ((cosTable 0 : ℚ) : ℝ) = Real.cos 0 := by
  unfold cosTable
  norm_num

theorem binary64_table_entry_3 :
    ((acosTable 1 : ℚ) : ℝ) = Real.arccos 1 := by
  unfold acosTable
  norm_num

theorem binary64_table_entry_4 :
    WithinHalfUlp Real.pi M_PI_64 := by
  refine ⟨1, 7074237752028440, ?_, ?_, ?_, ?_⟩
  · unfold M_PI_64
    rw [abs_of_pos (by norm_num)]
    norm_num
  · unfold M_PI_64
    rw [abs_of_pos (by norm_num)]
    norm_num
  · unfold M_PI_64
    norm_num
  · have h1 := Real.pi_gt_d20
    have h2 := Real.pi_lt_d20
    unfold M_PI_64
    rw [abs_lt]
    constructor <;> norm_num <;> linarith

theorem binary64_table_entry_5 :
    WithinHalfUlp (Real.sin ((-3615721517703425 / 2 ^ 52 : ℚ) : ℝ))
          (sinTable (-3615721517703425 / 2 ^ 52)) := by
  have t : sinTable (-3615721517703425 / 2 ^ 52) = -809904614189479 / 2 ^ 50 := by
    unfold sinTable
    norm_num
  rw [t]
  refine ⟨(-1), -6479236913515832, ?_, ?_, ?_, ?_⟩
  · rw [abs_of_neg (by norm_num)]
    norm_num
  · rw [abs_of_neg (by norm_num)]
    norm_num
  · norm_num
  · show |Real.sin ((-3615721517703425 / 2 ^ 52 : ℚ) : ℝ) - ((-809904614189479 / 2 ^ 50 : ℚ) : ℝ)|
        < (((2 : ℚ) ^ ((-1 : ℤ) - 53) : ℚ) : ℝ)
    apply sin_near _ _ _ 24 (by norm_num) (by decide) (by norm_num) (by norm_num)
    · simp only [Finset.sum_range_succ, Finset.sum_range_zero, cycIm, Nat.factorial]
      norm_num
    · simp only [Finset.sum_range_succ, Finset.sum_range_zero, cycIm, Nat.factorial]
      norm_num

theorem binary64_table_entry_6 :
    WithinHalfUlp (Real.cos ((-3615721517703425 / 2 ^ 52 : ℚ) : ℝ))
          (cosTable (-3615721517703425 / 2 ^ 52)) := by
  have t : cosTable (-3615721517703425 / 2 ^ 52) = 391057897293617 / 2 ^ 49 := by
    unfold cosTable
    norm_num
  rw [t]
  refine ⟨(-1), 6256926356697872, ?_, ?_, ?_, ?_⟩
  · rw [abs_of_pos (by norm_num)]
    norm_num
  · rw [abs_of_pos (by norm_num)]
    norm_num
  · norm_num
  · show |Real.cos ((-3615721517703425 / 2 ^ 52 : ℚ) : ℝ) - ((391057897293617 / 2 ^ 49 : ℚ) : ℝ)|
        < (((2 : ℚ) ^ ((-1 : ℤ) - 53) : ℚ) : ℝ)
    apply cos_near _ _ _ 24 (by norm_num) (by decide) (by norm_num) (by norm_num)
    · simp only [Finset.sum_range_succ, Finset.sum_range_zero, cycRe, Nat.factorial]
      norm_num
    · simp only [Finset.sum_range_succ, Finset.sum_range_zero, cycRe, Nat.factorial]
      norm_num

theorem binary64_table_entry_7 :
    WithinHalfUlp (Real.cos ((-6288211335136391 / 2 ^ 55 : ℚ) : ℝ))
          (cosTable (-6288211335136391 / 2 ^ 55)) := by
  have t : cosTable (-6288211335136391 / 2 ^ 55) = 8870359658994711 / 2 ^ 53 := by
    unfold cosTable
    norm_num
  rw [t]
  refine ⟨(-1), 8870359658994711, ?_, ?_, ?_, ?_⟩
  · rw [abs_of_pos (by norm_num)]
    norm_num
  · rw [abs_of_pos (by norm_num)]
    norm_num
  · norm_num
  · show |Real.cos ((-6288211335136391 / 2 ^ 55 : ℚ) : ℝ) - ((8870359658994711 / 2 ^ 53 : ℚ) : ℝ)|
        < (((2 : ℚ) ^ ((-1 : ℤ) - 53) : ℚ) : ℝ)
    apply cos_near _ _ _ 20 (by norm_num) (by decide) (by norm_num) (by norm_num)
    · simp only [Finset.sum_range_succ, Finset.sum_range_zero, cycRe, Nat.factorial]
      norm_num
    · simp only [Finset.sum_range_succ, Finset.sum_range_zero, cycRe, Nat.factorial]
      norm_num

theorem binary64_table_entry_8 :
    WithinHalfUlp (Real.cos ((-3458516234325015 / 2 ^ 53 : ℚ) : ℝ))
          (cosTable (-3458516234325015 / 2 ^ 53)) := by
  have t : cosTable (-3458516234325015 / 2 ^ 53) = 1043916215482731 / 2 ^ 50 := by
    unfold cosTable
    norm_num
  rw [t]
  refine ⟨(-1), 8351329723861848, ?_, ?_, ?_, ?_⟩
  · rw [abs_of_pos (by norm_num)]
    norm_num
  · rw [abs_of_pos (by norm_num)]
    norm_num
  · norm_num
  · show |Real.cos ((-3458516234325015 / 2 ^ 53 : ℚ) : ℝ) - ((1043916215482731 / 2 ^ 50 : ℚ) : ℝ)|
        < (((2 : ℚ) ^ ((-1 : ℤ) - 53) : ℚ) : ℝ)
    apply cos_near _ _ _ 20 (by norm_num) (by decide) (by norm_num) (by norm_num)
    · simp only [Finset.sum_range_succ, Finset.sum_range_zero, cycRe, Nat.factorial]
      norm_num
    · simp only [Finset.sum_range_succ, Finset.sum_range_zero, cycRe, Nat.factorial]
      norm_num

theorem binary64_table_entry_9 :
    WithinHalfUlp (Real.sin ((-6288211335136391 / 2 ^ 56 : ℚ) : ℝ))
          (sinTable (-6288211335136391 / 2 ^ 56)) := by
  have t : sinTable (-6288211335136391 / 2 ^ 56) = -3140116564492417 / 2 ^ 55 := by
    unfold sinTable
    norm_num
  rw [t]
  refine ⟨(-4), -6280233128984834, ?_, ?_, ?_, ?_⟩
  · rw [abs_of_neg (by norm_num)]
    norm_num
  · rw [abs_of_neg (by norm_num)]
    norm_num
  · norm_num
  · show |Real.sin ((-6288211335136391 / 2 ^ 56 : ℚ) : ℝ) - ((-3140116564492417 / 2 ^ 55 : ℚ) : ℝ)|
        < (((2 : ℚ) ^ ((-4 : ℤ) - 53) : ℚ) : ℝ)
    apply sin_near _ _ _ 20 (by norm_num) (by decide) (by norm_num) (by norm_num)
    · simp only [Finset.sum_range_succ, Finset.sum_range_zero, cycIm, Nat.factorial]
      norm_num
    · simp only [Finset.sum_range_succ, Finset.sum_range_zero, cycIm, Nat.factorial]
      norm_num

theorem binary64_table_entry_10 :
    WithinHalfUlp (Real.sin ((6288211335136391 / 2 ^ 56 : ℚ) : ℝ))
          (sinTable (6288211335136391 / 2 ^ 56)) := by
  have t : sinTable (6288211335136391 / 2 ^ 56) = 3140116564492417 / 2 ^ 55 := by
    unfold sinTable
    norm_num
  rw [t]
  refine ⟨(-4), 6280233128984834, ?_, ?_, ?_, ?_⟩
  · rw [abs_of_pos (by norm_num)]
    norm_num
  · rw [abs_of_pos (by norm_num)]
    norm_num
  · norm_num
  · show |Real.sin ((6288211335136391 / 2 ^ 56 : ℚ) : ℝ) - ((3140116564492417 / 2 ^ 55 : ℚ) : ℝ)|
        < (((2 : ℚ) ^ ((-4 : ℤ) - 53) : ℚ) : ℝ)
    apply sin_near _ _ _ 20 (by norm_num) (by decide) (by norm_num) (by norm_num)
    · simp only [Finset.sum_range_succ, Finset.sum_range_zero, cycIm, Nat.factorial]
      norm_num
    · simp only [Finset.sum_range_succ, Finset.sum_range_zero, cycIm, Nat.factorial]
      norm_num

theorem binary64_table_entry_11 :
    WithinHalfUlp (Real.cos ((-6288211335136391 / 2 ^ 56 : ℚ) : ℝ))
          (cosTable (-6288211335136391 / 2 ^ 56)) := by
  have t : cosTable (-6288211335136391 / 2 ^ 56) = 4486462071114449 / 2 ^ 52 := by
    unfold cosTable
    norm_num
  rw [t]
  refine ⟨(-1), 8972924142228898, ?_, ?_, ?_, ?_⟩
  · rw [abs_of_pos (by norm_num)]
    norm_num
  · rw [abs_of_pos (by norm_num)]
    norm_num
  · norm_num
  · show |Real.cos ((-6288211335136391 / 2 ^ 56 : ℚ) : ℝ) - ((4486462071114449 / 2 ^ 52 : ℚ) : ℝ)|
        < (((2 : ℚ) ^ ((-1 : ℤ) - 53) : ℚ) : ℝ)
    apply cos_near _ _ _ 20 (by norm_num) (by decide) (by norm_num) (by norm_num)
    · simp only [Finset.sum_range_succ, Finset.sum_range_zero, cycRe, Nat.factorial]
      norm_num
    · simp only [Finset.sum_range_succ, Finset.sum_range_zero, cycRe, Nat.factorial]
      norm_num

theorem binary64_table_entry_12 :
    WithinHalfUlp (Real.cos ((6288211335136391 / 2 ^ 56 : ℚ) : ℝ))
          (cosTable (6288211335136391 / 2 ^ 56)) := by
  have t : cosTable (6288211335136391 / 2 ^ 56) = 4486462071114449 / 2 ^ 52 := by
    unfold cosTable
    norm_num
  rw [t]
  refine ⟨(-1), 8972924142228898, ?_, ?_, ?_, ?_⟩
  · rw [abs_of_pos (by norm_num)]
    norm_num
  · rw [abs_of_pos (by norm_num)]
    norm_num
  · norm_num
  · show |Real.cos ((6288211335136391 / 2 ^ 56 : ℚ) : ℝ) - ((4486462071114449 / 2 ^ 52 : ℚ) : ℝ)|
        < (((2 : ℚ) ^ ((-1 : ℤ) - 53) : ℚ) : ℝ)
    apply cos_near _ _ _ 20 (by norm_num) (by decide) (by norm_num) (by norm_num)
    · simp only [Finset.sum_range_succ, Finset.sum_range_zero, cycRe, Nat.factorial]
      norm_num
    · simp only [Finset.sum_range_succ, Finset.sum_range_zero, cycRe, Nat.factorial]
      norm_num

theorem binary64_table_entry_13 :
    WithinHalfUlp (Real.arccos ((1108794957374339 / 2 ^ 50 : ℚ) : ℝ))
          (acosTable (1108794957374339 / 2 ^ 50)) := by
  have t : acosTable (1108794957374339 / 2 ^ 50) = 786026416892047 / 2 ^ 52 := by
    unfold acosTable
    norm_num
  rw [t]
  refine ⟨(-3), 6288211335136376, ?_, ?_, ?_, ?_⟩
  · rw [abs_of_pos (by norm_num)]
    norm_num
  · rw [abs_of_pos (by norm_num)]
    norm_num
  · norm_num
  · show |Real.arccos ((1108794957374339 / 2 ^ 50 : ℚ) : ℝ) - ((786026416892047 / 2 ^ 52 : ℚ) : ℝ)|
        < (((2 : ℚ) ^ ((-3 : ℤ) - 53) : ℚ) : ℝ)
    apply arccos_near _ _ _ 20 (by norm_num) (by decide) (by norm_num) (by norm_num)
      (by norm_num) (by norm_num) (by norm_num)
    · simp only [Finset.sum_range_succ, Finset.sum_range_zero, cycRe, Nat.factorial]
      norm_num
    · simp only [Finset.sum_range_succ, Finset.sum_range_zero, cycRe, Nat.factorial]
      norm_num

theorem binary64_table_entry_14 :
    WithinHalfUlp (Real.arccos ((4503599627370495 / 2 ^ 52 : ℚ) : ℝ))
          (acosTable (4503599627370495 / 2 ^ 52)) := by
  have t : acosTable (4503599627370495 / 2 ^ 52) = 6369051672525773 / 2 ^ 78 := by
    unfold acosTable
    norm_num
  rw [t]
  refine ⟨(-26), 6369051672525773, ?_, ?_, ?_, ?_⟩
  · rw [abs_of_pos (by norm_num)]
    norm_num
  · rw [abs_of_pos (by norm_num)]
    norm_num
  · norm_num
  · show |Real.arccos ((4503599627370495 / 2 ^ 52 : ℚ) : ℝ) - ((6369051672525773 / 2 ^ 78 : ℚ) : ℝ)|
        < (((2 : ℚ) ^ ((-26 : ℤ) - 53) : ℚ) : ℝ)
    apply arccos_near _ _ _ 8 (by norm_num) (by decide) (by norm_num) (by norm_num)
      (by norm_num) (by norm_num) (by norm_num)
    · simp only [Finset.sum_range_succ, Finset.sum_range_zero, cycRe, Nat.factorial]
      norm_num
    · simp only [Finset.sum_range_succ, Finset.sum_range_zero, cycRe, Nat.factorial]
      norm_num

theorem binary64_table_entry_15 :
    WithinHalfUlp (Real.arccos ((8870359658994711 / 2 ^ 53 : ℚ) : ℝ))
          (acosTable (8870359658994711 / 2 ^ 53)) := by
  have t : acosTable (8870359658994711 / 2 ^ 53) = 6288211335136399 / 2 ^ 55 := by
    unfold acosTable
    norm_num
  rw [t]
  refine ⟨(-3), 6288211335136399, ?_, ?_, ?_, ?_⟩
  · rw [abs_of_pos (by norm_num)]
    norm_num
  · rw [abs_of_pos (by norm_num)]
    norm_num
  · norm_num
  · show |Real.arccos ((8870359658994711 / 2 ^ 53 : ℚ) : ℝ) - ((6288211335136399 / 2 ^ 55 : ℚ) : ℝ)|
        < (((2 : ℚ) ^ ((-3 : ℤ) - 53) : ℚ) : ℝ)
    apply arccos_near _ _ _ 20 (by norm_num) (by decide) (by norm_num) (by norm_num)
      (by norm_num) (by norm_num) (by norm_num)
    · simp only [Finset.sum_range_succ, Finset.sum_range_zero, cycRe, Nat.factorial]
      norm_num
    · simp only [Finset.sum_range_succ, Finset.sum_range_zero, cycRe, Nat.factorial]
      norm_num

theorem binary64_table_entry_16 :
    WithinHalfUlp (Real.arccos ((1043916215482731 / 2 ^ 50 : ℚ) : ℝ))
          (acosTable (1043916215482731 / 2 ^ 50)) := by
  have t : acosTable (1043916215482731 / 2 ^ 50) = 6917032468650029 / 2 ^ 54 := by
    unfold acosTable
    norm_num
  rw [t]
  refine ⟨(-2), 6917032468650029, ?_, ?_, ?_, ?_⟩
  · rw [abs_of_pos (by norm_num)]
    norm_num
  · rw [abs_of_pos (by norm_num)]
    norm_num
  · norm_num
  · show |Real.arccos ((1043916215482731 / 2 ^ 50 : ℚ) : ℝ) - ((6917032468650029 / 2 ^ 54 : ℚ) : ℝ)|
        < (((2 : ℚ) ^ ((-2 : ℤ) - 53) : ℚ) : ℝ)
    apply arccos_near _ _ _ 20 (by norm_num) (by decide) (by norm_num) (by norm_num)
      (by norm_num) (by norm_num) (by norm_num)
    · simp only [Finset.sum_range_succ, Finset.sum_range_zero, cycRe, Nat.factorial]
      norm_num
    · simp only [Finset.sum_range_succ, Finset.sum_range_zero, cycRe, Nat.factorial]
      norm_num

/-- Every entry of the tables of `binary64`, and `M_PI`, is within half a unit in the last
place of the value of the real function at that argument: the tables are those of a
correctly rounding library. -/
theorem binary64_tables_correct :
    (((sinTable 0 : ℚ) : ℝ) = Real.sin 0)
      ∧ (((cosTable 0 : ℚ) : ℝ) = Real.cos 0)
      ∧ (((acosTable 1 : ℚ) : ℝ) = Real.arccos 1)
      ∧ (WithinHalfUlp Real.pi M_PI_64)
      ∧ (WithinHalfUlp (Real.sin ((-3615721517703425 / 2 ^ 52 : ℚ) : ℝ))
          (sinTable (-3615721517703425 / 2 ^ 52)))
      ∧ (WithinHalfUlp (Real.cos ((-3615721517703425 / 2 ^ 52 : ℚ) : ℝ))
          (cosTable (-3615721517703425 / 2 ^ 52)))
      ∧ (WithinHalfUlp (Real.cos ((-6288211335136391 / 2 ^ 55 : ℚ) : ℝ))
          (cosTable (-6288211335136391 / 2 ^ 55)))
      ∧ (WithinHalfUlp (Real.cos ((-3458516234325015 / 2 ^ 53 : ℚ) : ℝ))
          (cosTable (-3458516234325015 / 2 ^ 53)))
      ∧ (WithinHalfUlp (Real.sin ((-6288211335136391 / 2 ^ 56 : ℚ) : ℝ))
          (sinTable (-6288211335136391 / 2 ^ 56)))
      ∧ (WithinHalfUlp (Real.sin ((6288211335136391 / 2 ^ 56 : ℚ) : ℝ))
          (sinTable (6288211335136391 / 2 ^ 56)))
      ∧ (WithinHalfUlp (Real.cos ((-6288211335136391 / 2 ^ 56 : ℚ) : ℝ))
          (cosTable (-6288211335136391 / 2 ^ 56)))
      ∧ (WithinHalfUlp (Real.cos ((6288211335136391 / 2 ^ 56 : ℚ) : ℝ))
          (cosTable (6288211335136391 / 2 ^ 56)))
      ∧ (WithinHalfUlp (Real.arccos ((1108794957374339 / 2 ^ 50 : ℚ) : ℝ))
          (acosTable (1108794957374339 / 2 ^ 50)))
      ∧ (WithinHalfUlp (Real.arccos ((4503599627370495 / 2 ^ 52 : ℚ) : ℝ))
          (acosTable (4503599627370495 / 2 ^ 52)))
      ∧ (WithinHalfUlp (Real.arccos ((8870359658994711 / 2 ^ 53 : ℚ) : ℝ))
          (acosTable (8870359658994711 / 2 ^ 53)))
      ∧ (WithinHalfUlp (Real.arccos ((1043916215482731 / 2 ^ 50 : ℚ) : ℝ))
          (acosTable (1043916215482731 / 2 ^ 50))) :=
  ⟨binary64_table_entry_1,
    binary64_table_entry_2,
    binary64_table_entry_3,
    binary64_table_entry_4,
    binary64_table_entry_5,
    binary64_table_entry_6,
    binary64_table_entry_7,
    binary64_table_entry_8,
    binary64_table_entry_9,
    binary64_table_entry_10,
    binary64_table_entry_11,
    binary64_table_entry_12,
    binary64_table_entry_13,
    binary64_table_entry_14,
    binary64_table_entry_15,
    binary64_table_entry_16⟩

/-! ## Auxiliary facts for the claims -/

theorem inner_toEuclidean3 (u v : ℝ × ℝ × ℝ) :
    inner (toEuclidean3 u) (toEuclidean3 v) = dot3 u v := by
  simp [toEuclidean3, dot3, PiLp.inner_apply, Fin.sum_univ_three]

theorem norm_toEuclidean3 (u : ℝ × ℝ × ℝ) (hu : dot3 u u = 1) : ‖toEuclidean3 u‖ = 1 := by
  have h := real_inner_self_eq_norm_sq (toEuclidean3 u)
  rw [inner_toEuclidean3, hu] at h
  have h0 := norm_nonneg (toEuclidean3 u)
  nlinarith

/-- The angle between two vectors of length one is the inverse cosine of their dot
product. -/
theorem angle_toEuclidean3 (u v : ℝ × ℝ × ℝ) (hu : dot3 u u = 1) (hv : dot3 v v = 1) :
    InnerProductGeometry.angle (toEuclidean3 u) (toEuclidean3 v) = Real.arccos (dot3 u v) := by
  rw [InnerProductGeometry.angle, norm_toEuclidean3 u hu, norm_toEuclidean3 v hv,
    inner_toEuclidean3]
  simp

theorem pairDist_pair {K : Type} [LinearOrderedField K] (m : CMath K) (p q : K × K) :
    pairDist m [p, q] 0 1 = angularDistance m p.1 p.2 q.1 q.2 := rfl

theorem visitedPairs_two : visitedPairs 2 = [(0, 1)] := by decide

theorem angularDistance_zero_ten : angularDistance realMath 0 0 10 0 = 10 := by
  rw [angularDistance_real]
  have hc : cosAngle realMath 0 0 10 0 = Real.cos (Real.pi / 18) := by
    simp only [cosAngle, realMath, DEGREE_TO_RAD, zero_mul, Real.sin_zero, Real.cos_zero,
      mul_zero, zero_add, one_mul, zero_sub, Real.cos_neg]
    congr 1
    ring
  have hpi := Real.pi_pos
  rw [hc, Real.arccos_cos (by positivity) (by linarith)]
  field_simp
  ring

/-! ## 32-bit counters -/

section Int32

variable {K : Type} [LinearOrderedField K] [FloorRing K]

theorem getD_mem (h : List Int) (k : Nat) (hk : k < h.length) : h.getD k 0 ∈ h := by
  rw [List.getD_eq_getElem h 0 hk]
  exact List.getElem_mem hk

/-- While the number of pairs still to visit fits above the current sum, every 32-bit
increment is representable and the 32-bit loop is the exact loop. -/
theorem foldPairs_int32_eq_exact (m : CMath K) (num_bins : Nat) (max_distance bin_size : K)
    (points : List (K × K)) (hIB : InBounds m num_bins max_distance bin_size points)
    (L : List (Nat × Nat)) (h : List Int) (hlen : h.length = num_bins)
    (hnn : ∀ x ∈ h, 0 ≤ x) (hsum : h.sum + (L.length : Int) ≤ INT_MAX) :
    foldPairs m addInt32 max_distance bin_size points L h
      = foldPairs m addExact max_distance bin_size points L h := by
  induction L generalizing h with
  | nil => rfl
  | cons p L ih =>
    rw [foldPairs_cons, foldPairs_cons]
    have hlenL : (((p :: L).length : Nat) : Int) = (L.length : Int) + 1 := by
      simp
    rw [hlenL] at hsum
    by_cases hd : pairDist m points p.1 p.2 < max_distance
    · obtain ⟨hb0, hb1⟩ := hIB p.1 p.2 hd
      have hb : (truncToInt (m.rnd (pairDist m points p.1 p.2 / bin_size))).toNat < h.length := by
        rw [hlen]; omega
      have hmem := getD_mem h _ hb
      have hc0 := hnn _ hmem
      have hc1 := List.single_le_sum hnn _ hmem
      have hlo : INT_MIN ≤ h.getD (truncToInt (m.rnd (pairDist m points p.1 p.2 / bin_size))).toNat 0
          + 1 := by
        unfold INT_MIN; omega
      have hhi : h.getD (truncToInt (m.rnd (pairDist m points p.1 p.2 / bin_size))).toNat 0 + 1
          ≤ INT_MAX := by
        omega
      rw [visitPair_in _ _ _ _ _ _ _ _ hd, visitPair_in _ _ _ _ _ _ _ _ hd,
        bump_int32 h _ hb0 hb hlo hhi, bump_exact h _ hb0 hb, Option.some_bind,
        Option.some_bind]
      apply ih
      · simpa using hlen
      · intro x hx
        rcases List.mem_or_eq_of_mem_set hx with hx | hx
        · exact hnn x hx
        · omega
      · rw [sum_set_getD h _ hb]
        omega
    · rw [visitPair_out _ _ _ _ _ _ _ _ hd, visitPair_out _ _ _ _ _ _ _ _ hd,
        Option.some_bind, Option.some_bind]
      exact ih h hlen hnn (by omega)

theorem bump_int32_some (h h1 : List Int) (b : Int) (e : bump addInt32 h b = some h1) :
    bump addExact h b = some h1
      ∧ ((∀ x ∈ h, x ≤ INT_MAX) → ∀ x ∈ h1, x ≤ INT_MAX) := by
  unfold bump at e ⊢
  by_cases hc : 0 ≤ b ∧ b.toNat < h.length
  · rw [if_pos hc] at e ⊢
    unfold addInt32 at e
    by_cases hr : INT_MIN ≤ h.getD b.toNat 0 + 1 ∧ h.getD b.toNat 0 + 1 ≤ INT_MAX
    · rw [if_pos hr] at e
      refine ⟨e, ?_⟩
      have e2 : h1 = h.set b.toNat (h.getD b.toNat 0 + 1) := (Option.some.inj e).symm
      intro hall x hx
      rw [e2] at hx
      rcases List.mem_or_eq_of_mem_set hx with hx | hx
      · exact hall x hx
      · rw [hx]; exact hr.2
    · rw [if_neg hr] at e
      exact absurd e (by simp)
  · rw [if_neg hc] at e
    exact absurd e (by simp)

/-- A result of the 32-bit loop is the result of the exact loop, and its counters do not
exceed `INT_MAX` when the initial ones do not. -/
theorem foldPairs_int32_some (m : CMath K) (max_distance bin_size : K)
    (points : List (K × K)) (L : List (Nat × Nat)) (h h1 : List Int)
    (e : foldPairs m addInt32 max_distance bin_size points L h = some h1) :
    foldPairs m addExact max_distance bin_size points L h = some h1
      ∧ ((∀ x ∈ h, x ≤ INT_MAX) → ∀ x ∈ h1, x ≤ INT_MAX) := by
  induction L generalizing h with
  | nil =>
    rw [foldPairs_nil] at e ⊢
    have e2 : h = h1 := Option.some.inj e
    subst e2
    exact ⟨rfl, fun hall => hall⟩
  | cons p L ih =>
    rw [foldPairs_cons] at e ⊢
    by_cases hd : pairDist m points p.1 p.2 < max_distance
    · rw [visitPair_in _ _ _ _ _ _ _ _ hd] at e ⊢
      cases hb : bump addInt32 h (truncToInt (m.rnd (pairDist m points p.1 p.2 / bin_size))) with
      | none => rw [hb] at e; exact absurd e (by simp)
      | some h2 =>
        rw [hb, Option.some_bind] at e
        obtain ⟨b1, b2⟩ := bump_int32_some h h2 _ hb
        obtain ⟨i1, i2⟩ := ih h2 e
        rw [b1, Option.some_bind]
        exact ⟨i1, fun hall => i2 (b2 hall)⟩
    · rw [visitPair_out _ _ _ _ _ _ _ _ hd, Option.some_bind] at e ⊢
      exact ih h e

theorem countedPairs_int32 (h : List Int) (hnn : ∀ x ∈ h, 0 ≤ x) (hsum : h.sum ≤ INT_MAX) :
    countedPairs addInt32 h = some h.sum := by
  have key : ∀ (l : List Int) (a : Int), 0 ≤ a → (∀ x ∈ l, 0 ≤ x) → a + l.sum ≤ INT_MAX →
      l.foldlM addInt32 a = some (a + l.sum) := by
    intro l
    induction l with
    | nil => intro a _ _ _; simp
    | cons x xs ih =>
      intro a ha hx hs
      rw [List.foldlM_cons]
      show Option.bind (addInt32 a x) _ = _
      have hx0 : 0 ≤ x := hx x (List.mem_cons_self _ _)
      have hxs : 0 ≤ xs.sum := List.sum_nonneg (fun y hy => hx y (List.mem_cons_of_mem _ hy))
      rw [List.sum_cons] at hs
      have hr : INT_MIN ≤ a + x ∧ a + x ≤ INT_MAX := by
        unfold INT_MIN; constructor <;> omega
      have e : addInt32 a x = some (a + x) := by
        unfold addInt32
        exact if_pos hr
      rw [e, Option.some_bind,
        ih (a + x) (by omega) (fun y hy => hx y (List.mem_cons_of_mem _ hy)) (by omega),
        List.sum_cons, add_assoc]
  unfold countedPairs
  rw [key h 0 (le_refl 0) hnn (by omega), zero_add]

end Int32

theorem choose_two_le_iff (n : Nat) : n * (n - 1) / 2 ≤ 2 ^ 31 - 1 ↔ n ≤ 65536 := by
  constructor
  · intro h
    by_contra hc
    have h1 : 65537 * 65536 ≤ n * (n - 1) := Nat.mul_le_mul (by omega) (by omega)
    have h2 := Nat.div_le_div_right (c := 2) h1
    norm_num at h h2
    omega
  · intro h
    have h1 : n * (n - 1) ≤ 65536 * 65535 := Nat.mul_le_mul h (by omega)
    have h2 := Nat.div_le_div_right (c := 2) h1
    norm_num at h2 ⊢
    omega

/-! ## The pass in the reference configuration -/

section PassLaws

variable {K : Type} [LinearOrderedField K] [FloorRing K]

/-- When the bin indices are valid and `n * (n - 1) / 2` fits a 32-bit `int`, the pass
with 32-bit counters makes only representable increments and is the pass with unbounded
counters. -/
theorem countingPass_int32_eq_exact (m : CMath K) (num_bins : Nat) (max_distance : K)
    (points : List (K × K))
    (hIB : InBounds m num_bins max_distance (m.rnd (max_distance / (num_bins : K))) points)
    (hn : ((points.length * (points.length - 1) / 2 : Nat) : Int) ≤ INT_MAX) :
    countingPass m addInt32 num_bins max_distance points
      = countingPass m addExact num_bins max_distance points := by
  rw [countingPass_eq_foldPairs, countingPass_eq_foldPairs]
  apply foldPairs_int32_eq_exact m num_bins max_distance _ points hIB
  · exact List.length_replicate _ _
  · intro x hx
    rw [List.eq_of_mem_replicate hx]
  · have z : (List.replicate num_bins (0 : Int)).sum = 0 := by simp
    rw [z, zero_add, length_visitedPairs]
    exact hn

/-- The pass with unbounded counters in the reference configuration, for any environment
with the `FloatLaws`: it returns ten non-negative counters whose sum is at most
`n * (n - 1) / 2`, with equality exactly when every pair is in range; for `n ≤ 1` the
histogram is all-zero. -/
theorem countingPass_reference (m : CMath K) (hm : FloatLaws m) (points : List (K × K)) :
    ∃ h, countingPass m addExact 10 10 points = some h
      ∧ h.length = 10
      ∧ (∀ x ∈ h, 0 ≤ x)
      ∧ h.sum ≤ ((points.length * (points.length - 1) / 2 : Nat) : Int)
      ∧ (h.sum = ((points.length * (points.length - 1) / 2 : Nat) : Int)
          ↔ ∀ i j : Nat, i < j → j < points.length → pairDist m points i j < 10)
      ∧ (points.length ≤ 1 → h = List.replicate 10 0) := by
  obtain ⟨h, e, l, g, s⟩ := countingPass_exact m 10 10 points (inBounds_reference m hm points)
  refine ⟨h, e, l, ?_, ?_, ?_, ?_⟩
  · intro x hx
    obtain ⟨k, hk, rfl⟩ := List.getElem_of_mem hx
    rw [← List.getD_eq_getElem h 0 hk, g k]
    exact Int.natCast_nonneg _
  · rw [s, ← length_visitedPairs]
    exact_mod_cast List.countP_le_length _
  · rw [s, ← length_visitedPairs, Nat.cast_inj, List.countP_eq_length]
    constructor
    · intro hall i j hij hj
      have := hall (i, j) ((mem_visitedPairs _ i j).mpr ⟨hij, hj⟩)
      simpa using this
    · rintro hall ⟨i, j⟩ hp
      obtain ⟨hij, hj⟩ := (mem_visitedPairs _ i j).mp hp
      simpa using hall i j hij hj
  · intro hn
    have hnil : visitedPairs points.length = [] := by
      apply List.eq_nil_of_length_eq_zero
      rw [length_visitedPairs]
      interval_cases points.length <;> rfl
    rw [countingPass_eq_foldPairs, hnil, foldPairs_nil] at e
    exact (Option.some.inj e).symm

/-- The exact pass over `n` copies of one point whose computed distance to itself is
below `1` puts all `n * (n - 1) / 2` pairs into bin 0. -/
theorem countingPass_identical (m : CMath K) (hm : FloatLaws m) (n : Nat) (p : K × K)
    (hp : angularDistance m p.1 p.2 p.1 p.2 < 1) :
    ∃ h, countingPass m addExact 10 10 (List.replicate n p) = some h
      ∧ h.length = 10
      ∧ h.getD 0 0 = ((n * (n - 1) / 2 : Nat) : Int) := by
  obtain ⟨h, e, l, g, _⟩ := countingPass_exact m 10 10 (List.replicate n p)
    (inBounds_reference m hm _)
  refine ⟨h, e, l, ?_⟩
  rw [g 0, List.length_replicate, ← length_visitedPairs, Nat.cast_inj, List.countP_eq_length]
  rintro ⟨i, j⟩ hpair
  obtain ⟨hij, hj⟩ := (mem_visitedPairs n i j).mp hpair
  have hi : i < n := by omega
  have gi : (List.replicate n p).getD i (0, 0) = p := by
    rw [List.getD_eq_getElem _ _ (by simpa using hi)]
    simp
  have gj : (List.replicate n p).getD j (0, 0) = p := by
    rw [List.getD_eq_getElem _ _ (by simpa using hj)]
    simp
  have hd : pairDist m (List.replicate n p) i j = angularDistance m p.1 p.2 p.1 p.2 := by
    unfold pairDist
    rw [gi, gj]
  simp only [hd, decide_eq_true_eq]
  refine ⟨lt_trans hp (by norm_num), ?_⟩
  rw [binIndex_reference m hm, Int.floor_eq_iff]
  exact ⟨by exact_mod_cast angularDistance_nonneg m hm _ _ _ _, by simpa using hp⟩

/-- For 65537 copies of such a point the pass with 32-bit counters overflows. -/
theorem countingPass_int32_overflow (m : CMath K) (hm : FloatLaws m) (p : K × K)
    (hp : angularDistance m p.1 p.2 p.1 p.2 < 1) :
    countingPass m addInt32 10 10 (List.replicate 65537 p) = none := by
  obtain ⟨h, e, l, g⟩ := countingPass_identical m hm 65537 p hp
  cases e32 : countingPass m addInt32 10 10 (List.replicate 65537 p) with
  | none => rfl
  | some h1 =>
    exfalso
    rw [countingPass_eq_foldPairs] at e32 e
    obtain ⟨e1, b1⟩ := foldPairs_int32_some _ _ _ _ _ _ _ e32
    rw [e] at e1
    have hh : h = h1 := Option.some.inj e1
    subst hh
    have hz : ∀ x ∈ List.replicate 10 (0 : Int), x ≤ INT_MAX := by
      intro x hx
      rw [List.eq_of_mem_replicate hx]
      unfold INT_MAX
      norm_num
    have hm2 := b1 hz _ (getD_mem h 0 (by omega))
    rw [g] at hm2
    unfold INT_MAX at hm2
    norm_num at hm2

end PassLaws

section TwoPoints

variable {K : Type} [LinearOrderedField K] [FloorRing K]

/-- A two-point catalog whose computed distance is at least `max_distance` leaves the
histogram untouched. -/
theorem countingPass_pair_out (m : CMath K) (add : Int → Int → Option Int) (num_bins : Nat)
    (max_distance : K) (p q : K × K)
    (hd : max_distance ≤ angularDistance m p.1 p.2 q.1 q.2) :
    countingPass m add num_bins max_distance [p, q] = some (List.replicate num_bins 0) := by
  have hlen : [p, q].length = 2 := rfl
  have hd2 : ¬ pairDist m [p, q] (0, 1).1 (0, 1).2 < max_distance := by
    rw [pairDist_pair]
    exact not_lt.mpr hd
  rw [countingPass_eq_foldPairs, hlen, visitedPairs_two, foldPairs_cons,
    visitPair_out _ _ _ _ _ _ _ _ hd2, Option.some_bind, foldPairs_nil]

/-- A two-point catalog whose computed distance is below `max_distance` makes one
increment, at the computed bin index. -/
theorem countingPass_pair_in (m : CMath K) (add : Int → Int → Option Int) (num_bins : Nat)
    (max_distance : K) (p q : K × K)
    (hd : angularDistance m p.1 p.2 q.1 q.2 < max_distance) :
    countingPass m add num_bins max_distance [p, q]
      = bump add (List.replicate num_bins 0)
          (truncToInt (m.rnd (angularDistance m p.1 p.2 q.1 q.2
            / m.rnd (max_distance / (num_bins : K))))) := by
  have hlen : [p, q].length = 2 := rfl
  have hd2 : pairDist m [p, q] (0, 1).1 (0, 1).2 < max_distance := by
    rw [pairDist_pair]
    exact hd
  rw [countingPass_eq_foldPairs, hlen, visitedPairs_two, foldPairs_cons,
    visitPair_in _ _ _ _ _ _ _ _ hd2, pairDist_pair]
  cases bump add (List.replicate num_bins 0)
      (truncToInt (m.rnd (angularDistance m p.1 p.2 q.1 q.2
        / m.rnd (max_distance / (num_bins : K))))) with
  | none => rfl
  | some h => rw [Option.some_bind, foldPairs_nil]

end TwoPoints

theorem angularDistance_real_boundary : angularDistance realMath 0 (-5) 0 5 = 10 := by
  rw [angularDistance_real]
  have hc : cosAngle realMath 0 (-5) 0 5 = Real.cos (Real.pi / 18) := by
    have e1 : (-5 : ℝ) * (Real.pi / 180) = -(5 * (Real.pi / 180)) := by ring
    have e2 : Real.pi / 18 = 2 * (5 * (Real.pi / 180)) := by ring
    simp only [cosAngle, realMath, DEGREE_TO_RAD, zero_mul, sub_self, Real.cos_zero, mul_one,
      e1, Real.sin_neg, Real.cos_neg]
    rw [e2, Real.cos_two_mul, ← Real.cos_sq_add_sin_sq (5 * (Real.pi / 180))]
    ring
  have hpi := Real.pi_pos
  rw [hc, Real.arccos_cos (by positivity) (by linarith)]
  field_simp
  ring

/-- The points `(0,-5)` and `(0,5)` are exactly 10 degrees apart. Exact arithmetic gives
the distance `10` and, with `max_distance = 10.0`, does not count the pair; double
arithmetic gives `2814749767106553 / 2^48`, about `9.999999999999975`, and counts the
pair in bin 9. -/
theorem boundary_pair_rounding :
    angularDistance realMath 0 (-5) 0 5 = 10
      ∧ countingPass realMath addInt32 10 10 [(0, -5), (0, 5)] = some (List.replicate 10 0)
      ∧ angularDistance binary64 0 (-5) 0 5 = 2814749767106553 / 2 ^ 48
      ∧ countingPass binary64 addInt32 10 10 [(0, -5), (0, 5)]
          = some [0, 0, 0, 0, 0, 0, 0, 0, 0, 1] := by
  refine ⟨angularDistance_real_boundary,
    countingPass_pair_out realMath addInt32 10 10 (0, -5) (0, 5)
      (le_of_eq angularDistance_real_boundary.symm),
    angularDistance_binary64_boundary, ?_⟩
  have hd : angularDistance binary64 ((0 : ℚ), (-5 : ℚ)).1 ((0 : ℚ), (-5 : ℚ)).2
      ((0 : ℚ), (5 : ℚ)).1 ((0 : ℚ), (5 : ℚ)).2 < 10 := by
    show angularDistance binary64 0 (-5) 0 5 < 10
    rw [angularDistance_binary64_boundary]
    norm_num
  rw [countingPass_pair_in binary64 addInt32 10 10 (0, -5) (0, 5) hd,
    binIndex_reference binary64 floatLaws_binary64]
  have hf : ⌊angularDistance binary64 ((0 : ℚ), (-5 : ℚ)).1 ((0 : ℚ), (-5 : ℚ)).2
      ((0 : ℚ), (5 : ℚ)).1 ((0 : ℚ), (5 : ℚ)).2⌋ = 9 := by
    show ⌊angularDistance binary64 0 (-5) 0 5⌋ = 9
    rw [angularDistance_binary64_boundary, Int.floor_eq_iff]
    constructor <;> norm_num
  rw [hf]
  rfl

/-- C3: over the reals `angularDistance` is the great-circle separation in degrees,
`(180/π)` times the angle between the unit vectors
`u = (cos dec * cos ra, cos dec * sin ra, sin dec)` of the two points (angles in
radians), that is `(180/π) * arccos (u₁ · u₂)`; the computed cosine is that dot product,
the clamp leaves it unchanged, and both vectors have length one. -/
theorem angularDistance_eq_greatCircleSeparation (ra1 dec1 ra2 dec2 : ℝ) :
    angularDistance realMath ra1 dec1 ra2 dec2 = greatCircleSeparation ra1 dec1 ra2 dec2
      ∧ angularDistance realMath ra1 dec1 ra2 dec2
          = 180 / Real.pi * Real.arccos (dot3 (unitVector ra1 dec1) (unitVector ra2 dec2))
      ∧ cosAngle realMath ra1 dec1 ra2 dec2
          = dot3 (unitVector ra1 dec1) (unitVector ra2 dec2)
      ∧ clampCos (cosAngle realMath ra1 dec1 ra2 dec2) = cosAngle realMath ra1 dec1 ra2 dec2
      ∧ ‖toEuclidean3 (unitVector ra1 dec1)‖ = 1
      ∧ ‖toEuclidean3 (unitVector ra2 dec2)‖ = 1 := by
  have unit : ∀ ra dec : ℝ, dot3 (unitVector ra dec) (unitVector ra dec) = 1 := by
    intro ra dec
    simp only [dot3, unitVector]
    have h1 := Real.sin_sq_add_cos_sq (ra * (Real.pi / 180))
    have h2 := Real.sin_sq_add_cos_sq (dec * (Real.pi / 180))
    nlinarith
  have hm := cosAngle_real_mem ra1 dec1 ra2 dec2
  have key : angularDistance realMath ra1 dec1 ra2 dec2
      = 180 / Real.pi * Real.arccos (dot3 (unitVector ra1 dec1) (unitVector ra2 dec2)) := by
    rw [angularDistance_real, cosAngle_real_eq_dot]
    have hpi : Real.pi ≠ 0 := Real.pi_ne_zero
    field_simp
    ring
  refine ⟨?_, key, cosAngle_real_eq_dot ra1 dec1 ra2 dec2, clampCos_id hm.1 hm.2,
    norm_toEuclidean3 _ (unit ra1 dec1), norm_toEuclidean3 _ (unit ra2 dec2)⟩
  rw [key, greatCircleSeparation, angle_toEuclidean3 _ _ (unit ra1 dec1) (unit ra2 dec2)]

/-- C4: for all real inputs the result of `angularDistance` lies in `[0, 180]`, and the
bound is reached: `angularDistance(0, 90, 180, -90) = 180`. -/
theorem angularDistance_mem_Icc :
    (∀ ra1 dec1 ra2 dec2 : ℝ, 0 ≤ angularDistance realMath ra1 dec1 ra2 dec2
        ∧ angularDistance realMath ra1 dec1 ra2 dec2 ≤ 180)
      ∧ angularDistance realMath 0 90 180 (-90) = 180 := by
  refine ⟨fun a b c d => ⟨angularDistance_real_nonneg a b c d, angularDistance_real_le a b c d⟩,
    ?_⟩
  rw [angularDistance_real]
  have e1 : (90 : ℝ) * (Real.pi / 180) = Real.pi / 2 := by ring
  have e2 : (-90 : ℝ) * (Real.pi / 180) = -(Real.pi / 2) := by ring
  have hc : cosAngle realMath 0 90 180 (-90) = -1 := by
    simp only [cosAngle, realMath, DEGREE_TO_RAD, e1, e2, Real.sin_pi_div_two, Real.sin_neg,
      Real.cos_pi_div_two]
    ring
  rw [hc, Real.arccos_neg_one]
  have hpi : Real.pi ≠ 0 := Real.pi_ne_zero
  field_simp

/-- C5: `angularDistance` is symmetric in its two points. -/
theorem angularDistance_comm (ra1 dec1 ra2 dec2 : ℝ) :
    angularDistance realMath ra1 dec1 ra2 dec2 = angularDistance realMath ra2 dec2 ra1 dec1 := by
  have hc : cosAngle realMath ra1 dec1 ra2 dec2 = cosAngle realMath ra2 dec2 ra1 dec1 := by
    simp only [cosAngle, realMath]
    rw [← Real.cos_neg (ra1 * _ - ra2 * _), neg_sub]
    ring
  unfold angularDistance
  rw [hc]

/-- C8: whatever `sin`, `cos` and the arithmetic produce for `cos_angle`, the two
clamping statements return a value of `[-1, 1]`, they return `x` itself when `x` is
already in `[-1, 1]`, and the value `angularDistance` hands to `acos` is the clamped
one, so it is always in the domain of the inverse cosine. -/
theorem acos_argument_clamped {K : Type} [LinearOrderedField K] (m : CMath K) :
    (∀ x : K, -1 ≤ clampCos x ∧ clampCos x ≤ 1 ∧ (-1 ≤ x → x ≤ 1 → clampCos x = x))
      ∧ ∀ ra1 dec1 ra2 dec2 : K,
          angularDistance m ra1 dec1 ra2 dec2
              = m.rnd (m.acos (clampCos (cosAngle m ra1 dec1 ra2 dec2)) / DEGREE_TO_RAD m)
            ∧ -1 ≤ clampCos (cosAngle m ra1 dec1 ra2 dec2)
            ∧ clampCos (cosAngle m ra1 dec1 ra2 dec2) ≤ 1 :=
  ⟨fun x => ⟨clampCos_ge x, clampCos_le x, fun h1 h2 => clampCos_id h1 h2⟩,
    fun _ _ _ _ => ⟨rfl, clampCos_ge _, clampCos_le _⟩⟩

/-! ## Theorems about the counting pass -/

/-- C1: with `num_bins = 10` and `max_distance = 10.0`, over the reals and with
unbounded counters, the counting pass returns a histogram of ten counters in which
counter `k` is the number of index pairs `i < j < n` whose distance `d` is below
`max_distance` and has `floor (d / bin_size) = k`, equivalently
`k * bin_size ≤ d < (k + 1) * bin_size`; the pass is the loop body run once over each
index pair `i < j < n`. -/
theorem histogram_counts_pairs (points : List (ℝ × ℝ)) :
    ∃ histogram, countingPass realMath addExact 10 10 points = some histogram
      ∧ histogram.length = 10
      ∧ (∀ k : Nat, k < 10 → histogram[k]?
          = some ((binPairs (pairDist realMath points) points.length 10
              (10 / ((10 : Nat) : ℝ)) k).card : Int))
      ∧ (∀ k : Nat, binPairs (pairDist realMath points) points.length 10
              (10 / ((10 : Nat) : ℝ)) k
          = binPairsInterval (pairDist realMath points) points.length 10
              (10 / ((10 : Nat) : ℝ)) k)
      ∧ countingPass realMath addExact 10 10 points
          = foldPairs realMath addExact 10 (10 / ((10 : Nat) : ℝ)) points
              (visitedPairs points.length) (List.replicate 10 0)
      ∧ (visitedPairs points.length).Nodup
      ∧ ∀ i j : Nat, (i, j) ∈ visitedPairs points.length ↔ i < j ∧ j < points.length := by
  obtain ⟨h, e, l, g, _⟩ := countingPass_real 10 (by norm_num) 10 points
  refine ⟨h, e, l, ?_, ?_, countingPass_eq_foldPairs _ _ _ _ _, nodup_visitedPairs _,
    mem_visitedPairs _⟩
  · intro k hk
    rw [getElem?_of_getD h k (by omega), g k]
  · intro k
    exact binPairs_eq_interval _ _ _ _ (by norm_num) k

/-- C7: a pair whose computed angular distance is at least `max_distance` increments no
bin: in every environment, for every `num_bins`, `max_distance` and counter arithmetic,
the histogram of the two-point catalog is all-zero and `counted_pairs = 0`. -/
theorem far_pair_not_counted {K : Type} [LinearOrderedField K] [FloorRing K] (m : CMath K)
    (add : Int → Int → Option Int) (num_bins : Nat) (max_distance : K) (p q : K × K)
    (hd : max_distance ≤ angularDistance m p.1 p.2 q.1 q.2) :
    countingPass m add num_bins max_distance [p, q] = some (List.replicate num_bins 0)
      ∧ countedPairs addInt32 (List.replicate num_bins 0) = some 0
      ∧ countedPairs addExact (List.replicate num_bins 0) = some 0 := by
  have hs : (List.replicate num_bins (0 : Int)).sum = 0 := by simp
  refine ⟨countingPass_pair_out m add num_bins max_distance p q hd, ?_, ?_⟩
  · rw [countedPairs_int32 _ (fun x hx => by rw [List.eq_of_mem_replicate hx])
      (by rw [hs]; unfold INT_MAX; norm_num), hs]
  · rw [countedPairs_exact, hs]

/-- Instance of C7 at the boundary, `(0,0)` and `(10,0)` with `max_distance = 10.0`. In
exact arithmetic the distance is exactly `10`; in double arithmetic it is
`5629499534213127 / 2^49`, about `10.000000000000012`. In both the pair is not counted. -/
theorem far_pair_not_counted_witness :
    (angularDistance realMath 0 0 10 0 = 10
        ∧ countingPass realMath addInt32 10 10 [(0, 0), (10, 0)]
            = some (List.replicate 10 0))
      ∧ (angularDistance binary64 0 0 10 0 = 5629499534213127 / 2 ^ 49
        ∧ (10 : ℚ) ≤ angularDistance binary64 0 0 10 0
        ∧ countingPass binary64 addInt32 10 10 [(0, 0), (10, 0)]
            = some (List.replicate 10 0)
        ∧ countedPairs addInt32 (List.replicate 10 0) = some 0) := by
  have h64 : (10 : ℚ) ≤ angularDistance binary64 0 0 10 0 := by
    rw [angularDistance_binary64_ten]
    norm_num
  exact ⟨⟨angularDistance_zero_ten,
      (far_pair_not_counted realMath addInt32 10 10 (0, 0) (10, 0)
        (le_of_eq angularDistance_zero_ten.symm)).1⟩,
    angularDistance_binary64_ten, h64,
    (far_pair_not_counted binary64 addInt32 10 10 (0, 0) (10, 0) h64).1,
    (far_pair_not_counted binary64 addInt32 10 10 (0, 0) (10, 0) h64).2.1⟩

/-- C9, as stated, fails in double arithmetic outside the reference configuration: with
`num_bins = 33` and `max_distance = 22.0` the points `(0,0)` and `(22,0)` have the
computed distance `6192449487634431 / 2^48 < 22`, `bin_size` is the `double` below
`2/3`, the quotient rounds to `33.0`, and the write `histogram[33]` is outside the 33
counters. -/
theorem bin_index_counterexample :
    0 < 33 ∧ (0 : ℚ) < 22
      ∧ angularDistance binary64 0 0 22 0 < 22
      ∧ truncToInt (binary64.rnd (angularDistance binary64 0 0 22 0
          / binary64.rnd (22 / ((33 : Nat) : ℚ)))) = 33
      ∧ ¬ truncToInt (binary64.rnd (angularDistance binary64 0 0 22 0
          / binary64.rnd (22 / ((33 : Nat) : ℚ)))) ≤ ((33 : Nat) : Int) - 1
      ∧ countingPass binary64 addInt32 33 22 [(0, 0), (22, 0)] = none
      ∧ countingPass binary64 addExact 33 22 [(0, 0), (22, 0)] = none := by
  have hd : angularDistance binary64 0 0 22 0 < 22 := by
    rw [angularDistance_binary64_twentytwo]
    norm_num
  have s2 : roundBinary64 (22 / 33)
      = 6004799503160661 / 2 ^ 53 := by
    rw [roundBinary64_eq (x := 22 / 33)
      (-1) 6004799503160661 (by norm_num) (by norm_num) (by norm_num) (by norm_num)]
    norm_num
  have s3 : roundBinary64 ((6192449487634431 / 2 ^ 48) / (6004799503160661 / 2 ^ 53))
      = 33 := by
    rw [roundBinary64_eq (x := (6192449487634431 / 2 ^ 48) / (6004799503160661 / 2 ^ 53))
      5 4644337115725824 (by norm_num) (by norm_num) (by norm_num) (by norm_num)]
    norm_num
  have hidx : truncToInt (binary64.rnd (angularDistance binary64 0 0 22 0
      / binary64.rnd (22 / ((33 : Nat) : ℚ)))) = 33 := by
    rw [angularDistance_binary64_twentytwo, binary64_rnd, Nat.cast_ofNat, s2, s3]
    unfold truncToInt
    rw [if_pos (by norm_num)]
    exact Int.floor_eq_iff.mpr ⟨by norm_num, by norm_num⟩
  have hpass : ∀ add : Int → Int → Option Int,
      countingPass binary64 add 33 22 [(0, 0), (22, 0)] = none := by
    intro add
    have hlen : [((0 : ℚ), (0 : ℚ)), (22, 0)].length = 2 := rfl
    have hd2 : pairDist binary64 [(0, 0), (22, 0)] (0, 1).1 (0, 1).2 < 22 := by
      rw [pairDist_pair]
      exact hd
    rw [countingPass_eq_foldPairs, hlen, visitedPairs_two, foldPairs_cons,
      visitPair_in _ _ _ _ _ _ _ _ hd2, pairDist_pair]
    show (bump add _ (truncToInt (binary64.rnd (angularDistance binary64 0 0 22 0
      / binary64.rnd (22 / ((33 : Nat) : ℚ)))))).bind _ = none
    rw [hidx]
    unfold bump
    rw [if_neg (by simp)]
    rfl
  refine ⟨by norm_num, by norm_num, hd, hidx, ?_, hpass addInt32, hpass addExact⟩
  rw [hidx]
  norm_num

/-- C9, amended: in the reference configuration, `num_bins = 10` and
`max_distance = 10.0`, the computed `bin_size` is exactly `1` and, in any environment
with the `FloatLaws` (exact reals, doubles), every computed distance that passes the
filter gets a bin index in `0..9`, so the pass never writes outside the histogram. For
other `num_bins > 0` and `max_distance` the index is in `0..num_bins-1` in exact real
arithmetic. -/
theorem bin_index_in_bounds {K : Type} [LinearOrderedField K] [FloorRing K] (m : CMath K)
    (hm : FloatLaws m) :
    m.rnd ((10 : K) / ((10 : Nat) : K)) = 1
      ∧ (∀ ra1 dec1 ra2 dec2 : K, angularDistance m ra1 dec1 ra2 dec2 < 10 →
          0 ≤ truncToInt (m.rnd (angularDistance m ra1 dec1 ra2 dec2
                / m.rnd ((10 : K) / ((10 : Nat) : K))))
            ∧ truncToInt (m.rnd (angularDistance m ra1 dec1 ra2 dec2
                / m.rnd ((10 : K) / ((10 : Nat) : K)))) ≤ ((10 : Nat) : Int) - 1)
      ∧ (∀ points : List (K × K), ∃ histogram,
          countingPass m addExact 10 10 points = some histogram ∧ histogram.length = 10)
      ∧ (∀ points : List (K × K), points.length * (points.length - 1) / 2 ≤ 2 ^ 31 - 1 →
          ∃ histogram,
            countingPass m addInt32 10 10 points = some histogram ∧ histogram.length = 10)
      ∧ (∀ (num_bins : Nat) (max_distance : ℝ), 0 < num_bins →
          ∀ ra1 dec1 ra2 dec2 : ℝ, angularDistance realMath ra1 dec1 ra2 dec2 < max_distance →
            0 ≤ truncToInt (angularDistance realMath ra1 dec1 ra2 dec2
                  / (max_distance / (num_bins : ℝ)))
              ∧ truncToInt (angularDistance realMath ra1 dec1 ra2 dec2
                  / (max_distance / (num_bins : ℝ))) ≤ (num_bins : Int) - 1) := by
  refine ⟨bin_size_reference m hm, ?_, ?_, ?_, ?_⟩
  · intro ra1 dec1 ra2 dec2 hd
    have h := inBounds_reference m hm [(ra1, dec1), (ra2, dec2)] 0 1
    rw [pairDist_pair] at h
    replace h := h hd
    exact ⟨h.1, Int.le_sub_one_of_lt h.2⟩
  · intro points
    obtain ⟨h, e, l, _⟩ := countingPass_reference m hm points
    exact ⟨h, e, l⟩
  · intro points hn
    obtain ⟨h, e, l, _⟩ := countingPass_reference m hm points
    have hn2 : ((points.length * (points.length - 1) / 2 : Nat) : Int) ≤ INT_MAX := by
      unfold INT_MAX
      norm_num at hn
      omega
    refine ⟨h, ?_, l⟩
    rw [countingPass_int32_eq_exact m 10 10 points (inBounds_reference m hm points) hn2]
    exact e
  · intro num_bins max_distance hnb ra1 dec1 ra2 dec2 hd
    have h := inBounds_real num_bins hnb max_distance [(ra1, dec1), (ra2, dec2)] 0 1
    rw [pairDist_pair] at h
    replace h := h hd
    exact ⟨h.1, Int.le_sub_one_of_lt h.2⟩

/-- Instance of C9 in double arithmetic: `bin_size` is `1` and the catalog
`(0,-46), (0,-46)` is counted without a write outside the ten counters. -/
theorem bin_index_in_bounds_witness :
    FloatLaws binary64
      ∧ binary64.rnd ((10 : ℚ) / ((10 : Nat) : ℚ)) = 1
      ∧ ∃ histogram,
          countingPass binary64 addInt32 10 10 [(0, -46), (0, -46)] = some histogram
            ∧ histogram.length = 10 :=
  ⟨floatLaws_binary64, (bin_index_in_bounds binary64 floatLaws_binary64).1,
    (bin_index_in_bounds binary64 floatLaws_binary64).2.2.2.1 [(0, -46), (0, -46)]
      (by decide)⟩

/-! ## 32-bit counters -/

/-- C10: with the counters and `counted_pairs` as 32-bit signed `int`, for every catalog
of `n` points with `n * (n - 1) / 2 ≤ 2^31 - 1`, that is `n ≤ 65536`, every increment and
every partial sum of `counted_pairs` is representable: the 32-bit pass and the 32-bit
sum succeed and return the exact counts, all in `0..2^31-1`. The bound is tight: for
65537 copies of one point the exact count of bin 0 is `65537 * 65536 / 2 > 2^31 - 1` and
the 32-bit pass overflows. -/
theorem int32_counters_exact :
    (∀ points : List (ℝ × ℝ), points.length * (points.length - 1) / 2 ≤ 2 ^ 31 - 1 →
      ∃ histogram counted_pairs,
        countingPass realMath addInt32 10 10 points = some histogram
        ∧ countingPass realMath addExact 10 10 points = some histogram
        ∧ (∀ x ∈ histogram, 0 ≤ x ∧ x ≤ 2 ^ 31 - 1)
        ∧ countedPairs addInt32 histogram = some counted_pairs
        ∧ countedPairs addExact histogram = some counted_pairs
        ∧ 0 ≤ counted_pairs ∧ counted_pairs ≤ 2 ^ 31 - 1)
      ∧ (∀ n : Nat, n * (n - 1) / 2 ≤ 2 ^ 31 - 1 ↔ n ≤ 65536)
      ∧ ∀ p : ℝ × ℝ,
          (∃ histogram,
            countingPass realMath addExact 10 10 (List.replicate 65537 p) = some histogram
            ∧ histogram[0]? = some ((65537 * 65536 / 2 : Nat) : Int))
          ∧ (2 ^ 31 - 1 : Int) < ((65537 * 65536 / 2 : Nat) : Int)
          ∧ countingPass realMath addInt32 10 10 (List.replicate 65537 p) = none := by
  refine ⟨?_, choose_two_le_iff, ?_⟩
  · intro points hn
    have hn2 : ((points.length * (points.length - 1) / 2 : Nat) : Int) ≤ INT_MAX := by
      unfold INT_MAX
      norm_num at hn
      omega
    obtain ⟨h, e, _, hnn, hle, _⟩ := countingPass_reference realMath floatLaws_realMath points
    have hs : h.sum ≤ INT_MAX := le_trans hle hn2
    have hmax : INT_MAX = 2 ^ 31 - 1 := by unfold INT_MAX; norm_num
    refine ⟨h, h.sum, ?_, e, ?_, countedPairs_int32 h hnn hs, countedPairs_exact h,
      List.sum_nonneg hnn, hmax ▸ hs⟩
    · rw [countingPass_int32_eq_exact realMath 10 10 points
        (inBounds_reference realMath floatLaws_realMath points) hn2]
      exact e
    · intro x hx
      exact ⟨hnn x hx, hmax ▸ le_trans (List.single_le_sum hnn x hx) hs⟩
  · intro p
    have hp : angularDistance realMath p.1 p.2 p.1 p.2 < 1 := by
      rw [angularDistance_real_self]
      norm_num
    obtain ⟨h, e, l, g⟩ := countingPass_identical realMath floatLaws_realMath 65537 p hp
    have h0 : h[0]? = some ((65537 * 65536 / 2 : Nat) : Int) := by
      rw [getElem?_of_getD h 0 (by omega), g]
    exact ⟨⟨h, e, h0⟩, by norm_num,
      countingPass_int32_overflow realMath floatLaws_realMath p hp⟩

/-- Instance of C10: two copies of the origin, one pair, counted in bin 0 by the 32-bit
pass as by the exact one. -/
theorem int32_counters_exact_witness :
    ∃ histogram counted_pairs,
      countingPass realMath addInt32 10 10 [(0, 0), (0, 0)] = some histogram
      ∧ countingPass realMath addExact 10 10 [(0, 0), (0, 0)] = some histogram
      ∧ (∀ x ∈ histogram, 0 ≤ x ∧ x ≤ 2 ^ 31 - 1)
      ∧ countedPairs addInt32 histogram = some counted_pairs
      ∧ countedPairs addExact histogram = some counted_pairs
      ∧ 0 ≤ counted_pairs ∧ counted_pairs ≤ 2 ^ 31 - 1 :=
  int32_counters_exact.1 [(0, 0), (0, 0)] (by decide)

end AcfCpu
